import Mathlib

/-!
Verification development for the camel-race engine (`board.py`, `game.py`,
`main.py`).  The Python source is shallowly embedded: the board state, the
move resolver `apply_move` (including its `validates_board` decorator), the
ranking function `get_rankings`, the round settlement `evaluate_bets`, the
action dispatcher `apply_action` and the exhaustive simulator
`simulate_probs` are all translated into executable Lean definitions.
Python runtime failures (AssertionError, IndexError, KeyError, TypeError,
ValueError, AttributeError) are modelled with `Except` errors.  Machine
integers are modelled with `Nat`/`Int`; the only subtractions performed by
the source are `steps - 1` for a first placement (steps is at least 1 on
every path the theorems cover) and the `-1` shift of a Backwards tile,
which is applied to values that are at least `start + steps` with
`steps` at least 1, so truncated `Nat` subtraction agrees with Python
integer arithmetic on every covered input.
-/

namespace CamelUp

/-- The five camels, in the declaration order of `board.py`. -/
inductive Camel
  | Yellow
  | White
  | Blue
  | Orange
  | Green
deriving DecidableEq

/-- The camel identities in declaration order (`list(Camel)` in Python). -/
def Camel.all : List Camel := [.Yellow, .White, .Blue, .Orange, .Green]

theorem Camel.mem_all (c : Camel) : c ∈ Camel.all := by
  cases c <;> decide

instance : Fintype Camel where
  elems := ⟨↑Camel.all, by decide⟩
  complete := by intro c; cases c <;> decide

/-- The two tile directions (`Jump` in `board.py`): Forward is `+1`,
Backwards is `-1`. -/
inductive Jump
  | Forward
  | Backwards
deriving DecidableEq

/-- A single board field: Python uses `None` for an empty field, a
`list[Camel]` for a stack (bottom first) and the `JumpField` namedtuple for
a tile.  The tile owner is the arbitrary value supplied by the caller; in
the game it is a player name or Python `None`, hence `Option String`. -/
inductive BoardField
  | empty
  | stack (cs : List Camel)
  | jump (j : Jump) (owner : Option String)
deriving DecidableEq

/-- `Board` from `board.py`: 16 fields plus the camel -> position index
(a Python dict, modelled as a function to `Option Nat`). -/
structure Board where
  fields : List BoardField
  index : Camel → Option Nat

/-- `Move` namedtuple from `board.py`. -/
structure Move where
  camel : Camel
  steps : Nat
deriving DecidableEq

def BOARD_SIZE : Nat := 16

/-- `create_empty_board` from `board.py`. -/
def create_empty_board : Board :=
  ⟨List.replicate BOARD_SIZE .empty, fun _ => none⟩

/-- The failure modes of `apply_move`; each corresponds to a Python
exception raised by the original code. -/
inductive MoveError
  | jumpAtStart      -- AssertionError 'Jump at start' on a first move
  | offTrack         -- IndexError reading a field beyond the track
  | notInStack       -- ValueError/AttributeError: origin holds no stack with the camel
  | indexKeyMissing  -- KeyError bumping a carried camel absent from the index
  | mergeOntoJump    -- TypeError adding a camel list to a JumpField tuple
  | invalidResult    -- AssertionError from the validates_board decorator
deriving DecidableEq

/-- Result triple of `apply_move`: the new board, the tile owner reward
(`None` when no tile was hit, otherwise the tile's stored owner value, which
may itself be Python `None`), and the finished carried group. -/
structure MoveResult where
  board : Board
  owner : Option String
  winners : Option (List Camel)

/-- Overwrite one key of the position index (`board.index[c] = v`). -/
def idx_set (idx : Camel → Option Nat) (c : Camel) (v : Nat) : Camel → Option Nat :=
  fun x => if x = c then some v else idx x

/-- The loop `for camel in move_stack: board.index[camel] += ...` of
`apply_move`, performed left to right; a camel missing from the index is a
Python KeyError. -/
def bump_all (idx : Camel → Option Nat) (cs : List Camel) (f : Nat → Nat) :
    Except MoveError (Camel → Option Nat) :=
  match cs with
  | [] => .ok idx
  | c :: rest =>
    match idx c with
    | none => .error .indexKeyMissing
    | some v => bump_all (idx_set idx c (f v)) rest f

/-- Lines 147-151 of `board.py`: append the carried group on top of
whatever occupies `pos` (or create the stack).  A `JumpField` there is the
Python TypeError `list + tuple`. -/
def merge_top (fields : List BoardField) (idx : Camel → Option Nat) (pos : Nat)
    (ms : List Camel) (ow : Option String) : Except MoveError MoveResult :=
  match fields.get? pos with
  | none => .error .offTrack
  | some .empty => .ok ⟨⟨fields.set pos (.stack ms), idx⟩, ow, none⟩
  | some (.stack T) => .ok ⟨⟨fields.set pos (.stack (T ++ ms)), idx⟩, ow, none⟩
  | some (.jump _ _) => .error .mergeOntoJump

/-- The body of `apply_move` from `board.py` (without the decorator). -/
def apply_move_core (b : Board) (mv : Move) : Except MoveError MoveResult :=
  match b.index mv.camel with
  | none =>
    -- first move of a camel: place it at position steps - 1
    let pos := mv.steps - 1
    match b.fields.get? pos with
    | none => .error .offTrack
    | some (.jump _ _) => .error .jumpAtStart
    | some (.stack cs) =>
      .ok ⟨⟨b.fields.set pos (.stack (cs ++ [mv.camel])), idx_set b.index mv.camel pos⟩,
        none, none⟩
    | some .empty =>
      .ok ⟨⟨b.fields.set pos (.stack [mv.camel]), idx_set b.index mv.camel pos⟩,
        none, none⟩
  | some start =>
    match b.fields.get? start with
    | none => .error .offTrack
    | some .empty => .error .notInStack
    | some (.jump _ _) => .error .notInStack
    | some (.stack S) =>
      if mv.camel ∈ S then
        let height := S.indexOf mv.camel
        let ms := S.drop height
        let sl := S.take height
        let fields1 := b.fields.set start (if sl.isEmpty then .empty else .stack sl)
        match bump_all b.index ms (fun v => v + mv.steps) with
        | .error e => .error e
        | .ok idx1 =>
          let endPos := start + mv.steps
          if BOARD_SIZE ≤ endPos then
            .ok ⟨⟨fields1, idx1⟩, none, some ms⟩
          else
            match fields1.get? endPos with
            | none => .error .offTrack
            | some (.jump j o) =>
              (match j with
               | .Forward =>
                 match bump_all idx1 ms (fun v => v + 1) with
                 | .error e => .error e
                 | .ok idx2 =>
                   if BOARD_SIZE ≤ endPos + 1 then .ok ⟨⟨fields1, idx2⟩, o, some ms⟩
                   else merge_top fields1 idx2 (endPos + 1) ms o
               | .Backwards =>
                 match bump_all idx1 ms (fun v => v - 1) with
                 | .error e => .error e
                 | .ok idx2 =>
                   if BOARD_SIZE ≤ endPos - 1 then .ok ⟨⟨fields1, idx2⟩, o, some ms⟩
                   else
                     match fields1.get? (endPos - 1) with
                     | none => .error .offTrack
                     | some .empty =>
                       .ok ⟨⟨fields1.set (endPos - 1) (.stack ms), idx2⟩, o, none⟩
                     | some (.stack T) =>
                       .ok ⟨⟨fields1.set (endPos - 1) (.stack (ms ++ T)), idx2⟩, o, none⟩
                     | some (.jump _ _) => .error .mergeOntoJump)
            | some .empty =>
              .ok ⟨⟨fields1.set endPos (.stack ms), idx1⟩, none, none⟩
            | some (.stack T) =>
              .ok ⟨⟨fields1.set endPos (.stack (T ++ ms)), idx1⟩, none, none⟩
      else .error .notInStack

/-- `validate_board` from `board.py`: every indexed camel below the board
size must be a member of the stack at its indexed position.  The Python
dict iteration is replaced by iteration over all camel identities. -/
def validate_board (b : Board) : Bool :=
  Camel.all.all fun c =>
    match b.index c with
    | none => true
    | some p =>
      if BOARD_SIZE ≤ p then true
      else
        match b.fields.get? p with
        | some (.stack cs) => decide (c ∈ cs)
        | _ => false

/-- `apply_move` as exported by `board.py`: the core body wrapped in the
`validates_board(0)` decorator, which asserts `validate_board` on the
returned board. -/
def apply_move (b : Board) (mv : Move) : Except MoveError MoveResult :=
  match apply_move_core b mv with
  | .error e => .error e
  | .ok r => if validate_board r.board then .ok r else .error .invalidResult

/-! ## Ranking (`get_rankings` in `board.py`) -/

/-- The single failure mode of `get_rankings`: a `.index` lookup raised
(ValueError / AttributeError on `None.index`). -/
inductive RankError
  | lookupFailed
deriving DecidableEq

/-- The sort key of one camel: `(position, secondary)` where the secondary
key is the camel's height in its stack (on track) or its index in the
supplied finish-order list (finished).  Failure cases match the Python
expression `(board.fields[index] if index < BOARD_SIZE else winners).index(camel)`. -/
def camel_key (b : Board) (winners : Option (List Camel)) (c : Camel) (p : Nat) :
    Except RankError (Nat × Nat) :=
  if p < BOARD_SIZE then
    match b.fields.get? p with
    | some (.stack cs) => if c ∈ cs then .ok (p, cs.indexOf c) else .error .lookupFailed
    | _ => .error .lookupFailed
  else
    match winners with
    | some ws => if c ∈ ws then .ok (p, ws.indexOf c) else .error .lookupFailed
    | none => .error .lookupFailed

/-- The rank key of one camel as a partial function: defined exactly when
the Python key expression would not raise. -/
def keyOf (b : Board) (winners : Option (List Camel)) (c : Camel) :
    Option (Nat × Nat) :=
  match b.index c with
  | none => none
  | some p => (camel_key b winners c p).toOption

/-- `board.index.items()`: the indexed camels with their positions.  The
Python dict iterates in insertion order; the embedding iterates in camel
declaration order.  The two orders can only differ on tie-breaking of equal
sort keys, and equal sort keys are impossible on the boards the theorems
below consider. -/
def index_entries (b : Board) : List (Camel × Nat) :=
  Camel.all.filterMap fun c => (b.index c).map fun p => (c, p)

/-- Evaluate a fallible function over a list left to right, stopping at the
first failure (the behaviour of a Python list comprehension whose body can
raise). -/
def mapExcept {α β ε : Type} (f : α → Except ε β) : List α → Except ε (List β)
  | [] => .ok []
  | x :: xs =>
    match f x with
    | .error e => .error e
    | .ok y =>
      match mapExcept f xs with
      | .error e => .error e
      | .ok ys => .ok (y :: ys)

/-- The `unsorted_camels` list comprehension of `get_rankings`. -/
def keyed_entries (b : Board) (winners : Option (List Camel)) :
    Except RankError (List (Camel × Nat × Nat)) :=
  mapExcept (fun cp => (camel_key b winners cp.1 cp.2).map fun k => (cp.1, k))
    (index_entries b)

/-- `x` sorts no later than `y` under `sorted(key, reverse=True)`:
the key of `x` is lexicographically at least the key of `y`. -/
def entry_ge (x y : Camel × Nat × Nat) : Prop :=
  y.2.1 < x.2.1 ∨ (y.2.1 = x.2.1 ∧ y.2.2 ≤ x.2.2)

instance : DecidableRel entry_ge :=
  fun x y => inferInstanceAs (Decidable (y.2.1 < x.2.1 ∨ (y.2.1 = x.2.1 ∧ y.2.2 ≤ x.2.2)))

instance : IsTotal (Camel × Nat × Nat) entry_ge :=
  ⟨by intro a b; unfold entry_ge; omega⟩

instance : IsTrans (Camel × Nat × Nat) entry_ge :=
  ⟨by intro a b c; unfold entry_ge; omega⟩

/-- `get_rankings` from `board.py`: build the keyed list, sort it by the
key pair descending, return the camels best first. -/
def get_rankings (b : Board) (winners : Option (List Camel)) :
    Except RankError (List Camel) :=
  match keyed_entries b winners with
  | .error e => .error e
  | .ok es => .ok ((es.insertionSort entry_ge).map fun e => e.1)

/-! ## Well-formedness predicates

`validate_board` is the runtime check of the source.  The specification's
data-model invariant is stronger; the predicates below state it.  All of
them are decidable so that concrete boards can be checked by `decide`. -/

/-- The stack contents at position `p` of a field list (empty list when
the field holds no stack). -/
def stack_at_list (fs : List BoardField) (p : Nat) : List Camel :=
  match fs.get? p with
  | some (.stack cs) => cs
  | _ => []

/-- The stack contents at position `p` (empty list when the field holds no
stack). -/
def stack_list_at (b : Board) (p : Nat) : List Camel :=
  stack_at_list b.fields p

/-- How many times camel `c` occurs in the stack at position `p`. -/
def count_at (b : Board) (p : Nat) (c : Camel) : Nat :=
  (stack_list_at b p).count c

/-- Whether position `p` holds a tile. -/
def is_jump_at (b : Board) (p : Nat) : Bool :=
  match b.fields.get? p with
  | some (.jump _ _) => true
  | _ => false

/-- Whether position `p` holds a Backwards tile. -/
def is_backward_at (b : Board) (p : Nat) : Bool :=
  match b.fields.get? p with
  | some (.jump .Backwards _) => true
  | _ => false

/-! Derived descriptions of one `apply_move` call on a camel whose stack
splits at the camel's height; used to state the resolver's specification. -/

/-- The carried group: the moved camel and everything above it. -/
def split_ms (S : List Camel) (cm : Camel) : List Camel := S.drop (S.indexOf cm)

/-- The remainder left at the origin: everything below the moved camel. -/
def split_sl (S : List Camel) (cm : Camel) : List Camel := S.take (S.indexOf cm)

/-- The field list after the origin field has been rewritten to the
remainder (or to Empty when nothing remains). -/
def origin_updated (b : Board) (start : Nat) (S : List Camel) (cm : Camel) :
    List BoardField :=
  b.fields.set start
    (if (split_sl S cm).isEmpty then .empty else .stack (split_sl S cm))

/-- The final landing position of the carried group: `start + steps`,
shifted by the tile there when the group has not already finished. -/
def final_landing (b : Board) (start steps : Nat) : Nat :=
  if BOARD_SIZE ≤ start + steps then start + steps
  else
    match b.fields.get? (start + steps) with
    | some (.jump .Forward _) => start + steps + 1
    | some (.jump .Backwards _) => start + steps - 1
    | _ => start + steps

/-- The tile-owner reward of the move: the owner stored on the tile at
`start + steps`, provided the group did not finish before reaching it. -/
def jump_reward (b : Board) (start steps : Nat) : Option String :=
  if BOARD_SIZE ≤ start + steps then none
  else
    match b.fields.get? (start + steps) with
    | some (.jump _ o) => o
    | _ => none

/-- The stack produced at the final landing field when the group does not
finish: the carried group goes beneath the present occupants after a
Backwards shift and on top of them otherwise. -/
def merge_result (b : Board) (start steps : Nat) (S : List Camel) (cm : Camel) :
    List Camel :=
  if is_backward_at b (start + steps) then
    split_ms S cm ++ stack_at_list (origin_updated b start S cm) (final_landing b start steps)
  else
    stack_at_list (origin_updated b start S cm) (final_landing b start steps) ++ split_ms S cm

/-- The index-side well-formedness of a board: the track has 16 fields,
every camel indexed below 16 occurs exactly once in the stack at its
indexed position and in no other stack, and conversely every camel occurring
in some stack is indexed at that stack's position. -/
def WellFormedIdx (b : Board) : Prop :=
  b.fields.length = BOARD_SIZE ∧
  (∀ c : Camel, ∀ p : Nat, b.index c = some p → p < BOARD_SIZE →
    count_at b p c = 1 ∧ ∀ q, q < BOARD_SIZE → q ≠ p → count_at b q c = 0) ∧
  (∀ p : Nat, p < BOARD_SIZE → ∀ c ∈ stack_list_at b p, b.index c = some p)

/-- The tile-placement invariant of the track model: no two adjacent tiles. -/
def NoAdjacentJumps (b : Board) : Prop :=
  ∀ p : Nat, p < BOARD_SIZE → is_jump_at b p = true → is_jump_at b (p + 1) = false

/-- A well-formed board: the data-model invariants of the specification. -/
def WellFormed (b : Board) : Prop :=
  WellFormedIdx b ∧ NoAdjacentJumps b

/-- The weaker well-formedness used verbatim by claim C2: it only
constrains camels present in the position index (set-membership, no
converse direction). -/
def IndexedCamelsPlaced (b : Board) : Prop :=
  b.fields.length = BOARD_SIZE ∧
  ∀ c : Camel, ∀ p : Nat, b.index c = some p → p < BOARD_SIZE →
    c ∈ stack_list_at b p ∧ ∀ q, q < BOARD_SIZE → q ≠ p → c ∉ stack_list_at b q

instance decForallOptionNat (o : Option Nat) (P : Nat → Prop) [∀ n, Decidable (P n)] :
    Decidable (∀ p, o = some p → P p) :=
  match o with
  | none => isTrue (fun _ h => nomatch h)
  | some v =>
    if h : P v then isTrue (fun p hp => by cases hp; exact h)
    else isFalse (fun hall => h (hall v rfl))

instance decExistsOptionNat (o : Option Nat) (P : Nat → Prop) [∀ n, Decidable (P n)] :
    Decidable (∃ p, o = some p ∧ P p) :=
  match o with
  | none => isFalse (fun ⟨_, h, _⟩ => nomatch h)
  | some v =>
    if h : P v then isTrue ⟨v, rfl, h⟩
    else isFalse (fun ⟨p, hp, hP⟩ => by cases hp; exact h hP)

/-- All five camels are on the track below the finish line. -/
def AllOnTrack (b : Board) : Prop :=
  ∀ c : Camel, ∃ p, b.index c = some p ∧ p < BOARD_SIZE

/-- All five camels occur in the position index (possibly finished). -/
def AllIndexed (b : Board) : Prop :=
  ∀ c : Camel, ∃ p, b.index c = some p ∧ True

instance (b : Board) : Decidable (WellFormedIdx b) := by
  unfold WellFormedIdx; infer_instance

instance (b : Board) : Decidable (NoAdjacentJumps b) := by
  unfold NoAdjacentJumps; infer_instance

instance (b : Board) : Decidable (WellFormed b) := by
  unfold WellFormed; infer_instance

instance (b : Board) : Decidable (IndexedCamelsPlaced b) := by
  unfold IndexedCamelsPlaced; infer_instance

instance (b : Board) : Decidable (AllOnTrack b) := by
  unfold AllOnTrack; infer_instance

instance (b : Board) : Decidable (AllIndexed b) := by
  unfold AllIndexed; infer_instance

/-! ## Game model (`game.py`) -/

/-- `BetSize` from `game.py`. -/
inductive BetSize
  | Low
  | Med
  | High
deriving DecidableEq

/-- The numeric denomination of a bet (`BetSize.value`). -/
def BetSize.val : BetSize → Int
  | .Low => 2
  | .Med => 3
  | .High => 5

/-- `Player` namedtuple: balance and owned bets.  Python stores owned bets
in a `set`; the embedding uses a list, which only matters for iteration
order, and every use below is order-independent (a sum). -/
structure Player where
  balance : Int
  owned_bets : List (BetSize × Camel)
deriving DecidableEq

/-- `Game` namedtuple.  Players is a Python dict name -> Player (modelled
as an association list in insertion order), bets the per-camel wager pools,
`camels_left` the not-yet-moved set (modelled as a list). -/
structure Game where
  board : Board
  players : List (String × Player)
  bets : Camel → List BetSize
  camels_left : List Camel

/-- `reset_bets`: every camel gets the full pool `[Low, Med, High]`;
`pop()` claims from the right, so the highest denomination goes first. -/
def reset_bets : Camel → List BetSize := fun _ => [.Low, .Med, .High]

/-- `change_balance` from `game.py`: clamp the updated balance at 0.  A
`None` name or an absent name is left unchanged here (in Python an absent
key would raise KeyError; no covered claim exercises that path). -/
def change_balance (ps : List (String × Player)) (who : Option String) (d : Int) :
    List (String × Player) :=
  match who with
  | none => ps
  | some n =>
    ps.map fun np =>
      if np.1 = n then (np.1, ⟨max (np.2.balance + d) 0, np.2.owned_bets⟩) else np

/-- The net payout loop of `evaluate_bets` for one player: for every owned
wager, plus the denomination on the first camel, plus one on the second,
minus one otherwise. -/
def net_win (bets : List (BetSize × Camel)) (fst snd : Camel) : Int :=
  bets.foldl
    (fun acc bc =>
      if bc.2 = fst then acc + bc.1.val
      else if bc.2 = snd then acc + 1
      else acc - 1)
    0

/-- Failure modes of the game layer. -/
inductive GameError
  | moveFailed (e : MoveError)
  | rankFailed (e : RankError)   -- get_rankings raised inside evaluate_bets
  | badRankCount                 -- unpacking fst, snd from fewer than 2 ranks
  | badPlacePosition             -- IndexError storing a tile outside the track
  | noBetsLeft                   -- pop() from an empty wager pool
deriving DecidableEq

/-- `evaluate_bets` from `game.py`: settle every player's wagers against
the top two ranked camels, clamp balances at 0, clear all tiles, reset the
wager pools, clear owned wagers and reset the not-yet-moved set. -/
def evaluate_bets (g : Game) (b : Board) : Except GameError Game :=
  match get_rankings b none with
  | .error e => .error (.rankFailed e)
  | .ok (fst :: snd :: _) =>
    let players1 := g.players.map fun np =>
      (np.1, Player.mk (max (np.2.balance + net_win np.2.owned_bets fst snd) 0)
        np.2.owned_bets)
    let fields1 := b.fields.map fun f =>
      match f with
      | .jump _ _ => .empty
      | f => f
    .ok ⟨⟨fields1, b.index⟩,
      players1.map fun np => (np.1, ⟨np.2.balance, []⟩),
      reset_bets, Camel.all⟩
  | .ok _ => .error .badRankCount

/-- `Place` namedtuple from `game.py`. -/
structure Place where
  position : Nat
  jump : Jump
deriving DecidableEq

/-- The three action kinds dispatched by `apply_action` (`Move`, `Place`,
`Bet(Camel)`). -/
inductive GAction
  | move (m : Move)
  | place (p : Place)
  | bet (c : Camel)
deriving DecidableEq

/-- `OwnedAction` namedtuple. -/
structure OwnedAction where
  owner : Option String
  action : GAction

/-- `apply_action` from `game.py`.  Note that the `Place` branch stores the
tile unconditionally: the core performs no occupancy, adjacency or
position checks (those live in the shell's `parse_place`). -/
def apply_action (g : Game) (act : OwnedAction) :
    Except GameError (Game × Option (List Camel)) :=
  match act.action with
  | .move m =>
    let ps1 :=
      if act.owner = none ∧ m.camel ∈ g.camels_left then g.players
      else change_balance g.players act.owner 1
    match apply_move g.board m with
    | .error e => .error (.moveFailed e)
    | .ok r =>
      let ps2 :=
        match r.owner with
        | some o => change_balance ps1 (some o) 1
        | none => ps1
      let left2 := g.camels_left.filter fun c => c ≠ m.camel
      if left2.isEmpty then
        match evaluate_bets ⟨g.board, ps2, g.bets, g.camels_left⟩ r.board with
        | .error e => .error e
        | .ok g2 => .ok (g2, r.winners)
      else
        .ok (⟨r.board, ps2, g.bets, left2⟩, r.winners)
  | .place p =>
    if p.position < g.board.fields.length then
      .ok (⟨⟨g.board.fields.set p.position (.jump p.jump act.owner), g.board.index⟩,
        g.players, g.bets, g.camels_left⟩, none)
    else .error .badPlacePosition
  | .bet c =>
    match (g.bets c).getLast? with
    | none => .error .noBetsLeft
    | some bsize =>
      let bets2 := fun c2 => if c2 = c then (g.bets c).dropLast else g.bets c2
      let ps2 :=
        match act.owner with
        | none => g.players
        | some n =>
          g.players.map fun np =>
            if np.1 = n then (np.1, ⟨np.2.balance, (bsize, c) :: np.2.owned_bets⟩)
            else np
      .ok (⟨g.board, ps2, bets2, g.camels_left⟩, none)

/-- The single failure mode of the shell parser (`ParseError`). -/
inductive PError
  | invalid
deriving DecidableEq

/-- The validation half of `parse_place` from `main.py` (after the regex
has extracted the 1-based position `posIn` and the direction): reject
board position 0, out-of-track positions, occupied target fields and
targets adjacent to an existing tile. -/
def parse_place (g : Game) (posIn : Nat) (j : Jump) : Except PError Place :=
  if (posIn : Int) - 1 = 0 then .error .invalid
  else if (posIn : Int) - 1 < 0 ∨ 16 ≤ (posIn : Int) - 1 then .error .invalid
  else
    match g.board.fields.get? ((posIn : Int) - 1).toNat with
    | some .empty =>
      if is_jump_at g.board (((posIn : Int) - 1).toNat - 1) then .error .invalid
      else if ((posIn : Int) - 1).toNat ≠ 15 ∧
          is_jump_at g.board (((posIn : Int) - 1).toNat + 1) then .error .invalid
      else .ok ⟨((posIn : Int) - 1).toNat, j⟩
    | _ => .error .invalid

/-! ## Simulator (`simulate_probs` in `main.py`) -/

/-- The `total_paths` loop of `simulate_probs`:
`total = 1; for i in range(1, n + 1): total *= 3 * i`. -/
def total_paths : Nat → Nat
  | 0 => 1
  | n + 1 => total_paths n * (3 * (n + 1))

/-- `product(*[range(1, 4) for _ in range(n)])`: all assignments of a step
in {1, 2, 3} to each of `n` slots, first slot slowest. -/
def stepChoices : Nat → List (List Nat)
  | 0 => [[]]
  | n + 1 => [1, 2, 3].flatMap fun s => (stepChoices n).map fun ss => s :: ss

/-- `defaultdict(float)` bucket update (`f[c] += w`), with exact rational
weights in place of Python floats. -/
def addP (f : Camel → ℚ) (c : Camel) (w : ℚ) : Camel → ℚ :=
  fun x => if x = c then f x + w else f x

/-- `defaultdict(float)` update keyed by a tile owner name. -/
def addS (f : String → ℚ) (s : String) (w : ℚ) : String → ℚ :=
  fun x => if x = s then f x + w else f x

/-- Fold a fallible step function over a list left to right, stopping at
the first failure (a Python for-loop whose body can raise). -/
def foldE {σ α ε : Type} (f : σ → α → Except ε σ) : σ → List α → Except ε σ
  | s, [] => .ok s
  | s, x :: xs =>
    match f s x with
    | .error e => .error e
    | .ok s2 => foldE f s2 xs

/-- Failure modes of the simulator (each a Python exception). -/
inductive SimError
  | moveFailed (e : MoveError)
  | rankFailed (e : RankError)
  | badRankCount   -- unpacking 5 ranks from a list of another length
  | noCamelsLeft   -- the loop variable winner_stack is never bound
deriving DecidableEq

/-- The inner replay loop of one combination: apply the moves in order,
accumulate the tile-shift rewards, stop as soon as a move wins. -/
def runMoves (w : ℚ) : Board → List Move → (String → ℚ) →
    Except MoveError (Board × Option (List Camel) × (String → ℚ))
  | b, [], sh => .ok (b, none, sh)
  | b, m :: rest, sh =>
    match apply_move b m with
    | .error e => .error e
    | .ok r =>
      let sh2 :=
        match r.owner with
        | some o => addS sh o w
        | none => sh
      match r.winners with
      | some ws => .ok (r.board, some ws, sh2)
      | none => runMoves w r.board rest sh2

/-- The per-combination accumulators of `simulate_probs`. -/
structure SimAcc where
  fstP : Camel → ℚ
  sndP : Camel → ℚ
  winP : Camel → ℚ
  loseP : Camel → ℚ
  shifts : String → ℚ

/-- One iteration of the nested loops of `simulate_probs`: replay the
moves of this combination on a fresh copy of the board, rank the outcome
(with the finished group as the finish-order override), and accumulate. -/
def process_combo (b0 : Board) (w : ℚ) (acc : SimAcc) (ord : List Camel)
    (ss : List Nat) : Except SimError SimAcc :=
  match runMoves w b0 (List.zipWith Move.mk ord ss) acc.shifts with
  | .error e => .error (.moveFailed e)
  | .ok (b, wn, sh) =>
    match get_rankings b wn with
    | .error e => .error (.rankFailed e)
    | .ok [c1, c2, _, _, c5] =>
      let acc1 : SimAcc :=
        match wn with
        | some _ =>
          { acc with
            winP := addP acc.winP c1 w
            loseP := addP acc.loseP c5 w
            shifts := sh }
        | none => { acc with shifts := sh }
      .ok { acc1 with
            fstP := addP acc1.fstP c1 w
            sndP := addP acc1.sndP c2 w }
    | .ok _ => .error .badRankCount

/-- `simulate_probs` from `main.py`: enumerate every permutation of the
remaining camels crossed with every step assignment, replay each
combination, and accumulate first/second place, race win/lose and
tile-shift probabilities, each combination weighted `1 / total_paths`. -/
def simulate_probs (g : Game) : Except SimError SimAcc :=
  if g.camels_left.isEmpty then .error .noCamelsLeft
  else
    let n := g.camels_left.length
    let w : ℚ := 1 / (total_paths n : ℚ)
    foldE
      (fun acc ord =>
        foldE (fun a ss => process_combo g.board w a ord ss) acc (stepChoices n))
      ⟨fun _ => 0, fun _ => 0, fun _ => 0, fun _ => 0, fun _ => 0⟩
      g.camels_left.permutations

/-- Sum of a camel-indexed accumulator over all five camels. -/
def sumC (f : Camel → ℚ) : ℚ := (Camel.all.map f).sum

/-! ## Concrete boards and games used by witnesses and counterexamples -/

/-- A board with Yellow already finished (recorded position 16) and no
other camel placed. -/
def finished_board : Board :=
  ⟨List.replicate BOARD_SIZE .empty,
    fun c => if c = .Yellow then some 16 else none⟩

/-- A concrete settlement scenario: all five camels stacked on field 0,
one player holding a high wager on the leader and a low wager elsewhere. -/
def settle_board : Board :=
  ⟨(List.replicate BOARD_SIZE BoardField.empty).set 0
      (.stack [.Yellow, .White, .Blue, .Orange, .Green]),
    fun _ => some 0⟩

def settle_game : Game :=
  ⟨settle_board,
    [("joe", ⟨3, [(BetSize.High, .Green), (BetSize.Low, .White)]⟩)],
    reset_bets, []⟩

def c8_game : Game :=
  ⟨create_empty_board, [("a", ⟨3, []⟩)], reset_bets, Camel.all⟩

def c8w_game : Game :=
  ⟨⟨(List.replicate BOARD_SIZE BoardField.empty).set 3 (.jump .Backwards (some "a")),
      fun _ => none⟩,
    [("a", ⟨3, []⟩)], reset_bets, Camel.all⟩

/-- A one-camel-remaining simulation scenario on the fully stacked board. -/
def c6w_game : Game :=
  ⟨settle_board, [("a", ⟨3, []⟩)], reset_bets, [.Yellow]⟩

/-! ## Helper lemmas -/

theorem get?_set_self {α : Type} (l : List α) (i : Nat) (a : α) (h : i < l.length) :
    (l.set i a).get? i = some a :=
  List.get?_set_eq_of_lt a h

theorem get?_set_other {α : Type} (l : List α) {i j : Nat} (a : α) (h : i ≠ j) :
    (l.set i a).get? j = l.get? j :=
  List.get?_set_ne a l h

theorem stack_at_list_eq {fs : List BoardField} {p : Nat} {S : List Camel}
    (h : fs.get? p = some (.stack S)) : stack_at_list fs p = S := by
  unfold stack_at_list; rw [h]

theorem stack_at_list_set_self {fs : List BoardField} {p : Nat} (S : List Camel)
    (h : p < fs.length) : stack_at_list (fs.set p (.stack S)) p = S := by
  unfold stack_at_list; rw [get?_set_self _ _ _ h]

theorem stack_at_list_set_ne {fs : List BoardField} {p q : Nat} (f : BoardField)
    (h : p ≠ q) : stack_at_list (fs.set p f) q = stack_at_list fs q := by
  unfold stack_at_list; rw [get?_set_other _ _ h]

theorem stack_list_at_eq {b : Board} {p : Nat} {S : List Camel}
    (h : b.fields.get? p = some (.stack S)) : stack_list_at b p = S :=
  stack_at_list_eq h

theorem idx_set_self (idx : Camel → Option Nat) (c : Camel) (v : Nat) :
    idx_set idx c v c = some v := by
  unfold idx_set
  simp

theorem idx_set_ne (idx : Camel → Option Nat) {x c : Camel} (v : Nat)
    (h : x ≠ c) : idx_set idx c v x = idx x := by
  unfold idx_set
  simp [h]

theorem wfi_length {b : Board} (h : WellFormedIdx b) :
    b.fields.length = BOARD_SIZE := h.1

theorem wfi_count {b : Board} (h : WellFormedIdx b) {c : Camel} {p : Nat}
    (hc : b.index c = some p) (hp : p < BOARD_SIZE) :
    count_at b p c = 1 ∧ ∀ q, q < BOARD_SIZE → q ≠ p → count_at b q c = 0 :=
  h.2.1 c p hc hp

theorem wfi_coh {b : Board} (h : WellFormedIdx b) {p : Nat} (hp : p < BOARD_SIZE)
    {c : Camel} (hc : c ∈ stack_list_at b p) : b.index c = some p :=
  h.2.2 p hp c hc

theorem count_at_of_stack {b : Board} {p : Nat} {S : List Camel}
    (hS : b.fields.get? p = some (.stack S)) (c : Camel) :
    count_at b p c = S.count c := by
  unfold count_at
  rw [stack_list_at_eq hS]

theorem wf_count_origin {b : Board} (hwf : WellFormedIdx b) {c : Camel} {p : Nat}
    {S : List Camel} (hc : b.index c = some p) (hp : p < BOARD_SIZE)
    (hS : b.fields.get? p = some (.stack S)) : S.count c = 1 := by
  have h1 := (wfi_count hwf hc hp).1
  rw [count_at_of_stack hS] at h1
  exact h1

theorem wf_mem_origin {b : Board} (hwf : WellFormedIdx b) {c : Camel} {p : Nat}
    {S : List Camel} (hc : b.index c = some p) (hp : p < BOARD_SIZE)
    (hS : b.fields.get? p = some (.stack S)) : c ∈ S := by
  have h1 := wf_count_origin hwf hc hp hS
  exact List.count_pos_iff_mem.mp (by omega)

theorem wf_stack_nodup {b : Board} (hwf : WellFormedIdx b) {p : Nat}
    {S : List Camel} (hp : p < BOARD_SIZE)
    (hS : b.fields.get? p = some (.stack S)) : S.Nodup := by
  rw [List.nodup_iff_count_le_one]
  intro a
  by_cases ha : a ∈ S
  · have hidx := wfi_coh hwf hp (c := a) (by rw [stack_list_at_eq hS]; exact ha)
    have := wf_count_origin hwf hidx hp hS
    omega
  · rw [List.count_eq_zero.mpr ha]
    omega

theorem wf_stack_member_index {b : Board} (hwf : WellFormedIdx b) {p : Nat}
    {S : List Camel} (hp : p < BOARD_SIZE)
    (hS : b.fields.get? p = some (.stack S)) {c : Camel} (hc : c ∈ S) :
    b.index c = some p :=
  wfi_coh hwf hp (by rw [stack_list_at_eq hS]; exact hc)

theorem wf_not_mem_other {b : Board} (hwf : WellFormedIdx b) {c : Camel} {p q : Nat}
    (hc : b.index c = some p) (hp : p < BOARD_SIZE) (hq : q < BOARD_SIZE)
    (hne : q ≠ p) : c ∉ stack_list_at b q := by
  have h0 := (wfi_count hwf hc hp).2 q hq hne
  unfold count_at at h0
  exact List.count_eq_zero.mp h0

theorem bump_all_ok {f : Nat → Nat} :
    ∀ {cs : List Camel} (idx : Camel → Option Nat), cs.Nodup →
      (∀ c ∈ cs, (idx c).isSome = true) →
      ∃ idx2, bump_all idx cs f = .ok idx2 ∧
        ∀ x, idx2 x = if x ∈ cs then (idx x).map f else idx x := by
  intro cs
  induction cs with
  | nil =>
    intro idx _ _
    exact ⟨idx, rfl, by intro x; simp⟩
  | cons c rest ih =>
    intro idx hnd hall
    have hc : (idx c).isSome = true := hall c (by simp)
    cases hv : idx c with
    | none => rw [hv] at hc; cases hc
    | some v =>
      have hcnotin := (List.nodup_cons.mp hnd).1
      have hnd2 := (List.nodup_cons.mp hnd).2
      have hall2 : ∀ x ∈ rest, ((idx_set idx c (f v)) x).isSome = true := by
        intro x hx
        unfold idx_set
        by_cases hxc : x = c
        · simp [hxc]
        · simp only [if_neg hxc]
          exact hall x (by simp [hx])
      obtain ⟨idx2, hrun, hchar⟩ := ih _ hnd2 hall2
      refine ⟨idx2, ?_, ?_⟩
      · simp only [bump_all, hv]
        exact hrun
      · intro x
        rw [hchar x]
        by_cases hxr : x ∈ rest
        · have hxc : x ≠ c := fun he => hcnotin (he ▸ hxr)
          rw [if_pos hxr, if_pos (by simp [hxr])]
          unfold idx_set
          rw [if_neg hxc]
        · rw [if_neg hxr]
          unfold idx_set
          by_cases hxc : x = c
          · subst hxc
            rw [if_pos rfl, if_pos (by simp), hv]
            rfl
          · rw [if_neg hxc, if_neg (by simp [hxc, hxr])]

theorem validate_board_true {b : Board}
    (h : ∀ c : Camel, ∀ p, b.index c = some p → p < BOARD_SIZE →
      c ∈ stack_list_at b p) :
    validate_board b = true := by
  unfold validate_board
  rw [List.all_eq_true]
  intro c _
  cases hidx : b.index c with
  | none => simp only [hidx]
  | some p =>
    simp only [hidx]
    by_cases hp : BOARD_SIZE ≤ p
    · simp [hp]
    · have hm := h c p hidx (by omega)
      unfold stack_list_at stack_at_list at hm
      cases hg : b.fields.get? p with
      | none => rw [hg] at hm; cases hm
      | some f =>
        cases f with
        | empty => rw [hg] at hm; cases hm
        | jump j o => rw [hg] at hm; cases hm
        | stack cs =>
          rw [hg] at hm
          simp [hp, hg, hm]

theorem mapExcept_ok_forall {α β ε : Type} {f : α → Except ε β} :
    ∀ {l : List α} {ys : List β}, mapExcept f l = .ok ys → ∀ x ∈ l, ∃ y, f x = .ok y := by
  intro l
  induction l with
  | nil => intro ys _ x hx; cases hx
  | cons a as ih =>
    intro ys h x hx
    rw [mapExcept] at h
    cases ha : f a with
    | error e => rw [ha] at h; cases h
    | ok y =>
      rw [ha] at h
      cases has : mapExcept f as with
      | error e => rw [has] at h; cases h
      | ok ys2 =>
        cases List.mem_cons.mp hx with
        | inl hxa => exact ⟨y, hxa ▸ ha⟩
        | inr hxs => exact ih has x hxs

theorem index_entries_mem {b : Board} {c : Camel} {p : Nat}
    (h : b.index c = some p) : (c, p) ∈ index_entries b := by
  unfold index_entries
  apply List.mem_filterMap.mpr
  exact ⟨c, Camel.mem_all c, by rw [h]; rfl⟩

theorem net_win_foldl {c1 c2 : Camel} :
    ∀ (l : List (BetSize × Camel)) (a : Int),
      l.foldl
        (fun acc bc =>
          if bc.2 = c1 then acc + bc.1.val
          else if bc.2 = c2 then acc + 1
          else acc - 1) a
      = a + (l.map fun bc =>
          if bc.2 = c1 then bc.1.val else if bc.2 = c2 then 1 else -1).sum := by
  intro l
  induction l with
  | nil => intro a; simp
  | cons bc rest ih =>
    intro a
    rw [List.foldl_cons, ih, List.map_cons, List.sum_cons]
    split_ifs <;> ring

theorem net_win_eq_sum (l : List (BetSize × Camel)) (c1 c2 : Camel) :
    net_win l c1 c2
      = (l.map fun bc =>
          if bc.2 = c1 then bc.1.val else if bc.2 = c2 then 1 else -1).sum := by
  unfold net_win
  rw [net_win_foldl]
  simp

theorem validate_board_of_wfi {b : Board} (h : WellFormedIdx b) :
    validate_board b = true := by
  apply validate_board_true
  intro c p hc hp
  have h1 := (wfi_count h hc hp).1
  unfold count_at at h1
  exact List.count_pos_iff.mp (by omega)

theorem final_landing_finish {b : Board} {start steps : Nat}
    (h : BOARD_SIZE ≤ start + steps) : final_landing b start steps = start + steps := by
  unfold final_landing; rw [if_pos h]

theorem final_landing_empty {b : Board} {start steps : Nat}
    (h : ¬ BOARD_SIZE ≤ start + steps)
    (hd : b.fields.get? (start + steps) = some .empty) :
    final_landing b start steps = start + steps := by
  unfold final_landing; rw [if_neg h, hd]

theorem final_landing_stack {b : Board} {start steps : Nat} {T : List Camel}
    (h : ¬ BOARD_SIZE ≤ start + steps)
    (hd : b.fields.get? (start + steps) = some (.stack T)) :
    final_landing b start steps = start + steps := by
  unfold final_landing; rw [if_neg h, hd]

theorem final_landing_fwd {b : Board} {start steps : Nat} {o : Option String}
    (h : ¬ BOARD_SIZE ≤ start + steps)
    (hd : b.fields.get? (start + steps) = some (.jump .Forward o)) :
    final_landing b start steps = start + steps + 1 := by
  unfold final_landing; rw [if_neg h, hd]

theorem final_landing_bwd {b : Board} {start steps : Nat} {o : Option String}
    (h : ¬ BOARD_SIZE ≤ start + steps)
    (hd : b.fields.get? (start + steps) = some (.jump .Backwards o)) :
    final_landing b start steps = start + steps - 1 := by
  unfold final_landing; rw [if_neg h, hd]

theorem jump_reward_finish {b : Board} {start steps : Nat}
    (h : BOARD_SIZE ≤ start + steps) : jump_reward b start steps = none := by
  unfold jump_reward; rw [if_pos h]

theorem jump_reward_empty {b : Board} {start steps : Nat}
    (h : ¬ BOARD_SIZE ≤ start + steps)
    (hd : b.fields.get? (start + steps) = some .empty) :
    jump_reward b start steps = none := by
  unfold jump_reward; rw [if_neg h, hd]

theorem jump_reward_stack {b : Board} {start steps : Nat} {T : List Camel}
    (h : ¬ BOARD_SIZE ≤ start + steps)
    (hd : b.fields.get? (start + steps) = some (.stack T)) :
    jump_reward b start steps = none := by
  unfold jump_reward; rw [if_neg h, hd]

theorem jump_reward_jump {b : Board} {start steps : Nat} {j : Jump}
    {o : Option String} (h : ¬ BOARD_SIZE ≤ start + steps)
    (hd : b.fields.get? (start + steps) = some (.jump j o)) :
    jump_reward b start steps = o := by
  unfold jump_reward; rw [if_neg h, hd]

theorem is_backward_at_bwd {b : Board} {p : Nat} {o : Option String}
    (hd : b.fields.get? p = some (.jump .Backwards o)) :
    is_backward_at b p = true := by
  unfold is_backward_at; rw [hd]

theorem is_backward_at_fwd {b : Board} {p : Nat} {o : Option String}
    (hd : b.fields.get? p = some (.jump .Forward o)) :
    is_backward_at b p = false := by
  unfold is_backward_at; rw [hd]

theorem is_backward_at_empty {b : Board} {p : Nat}
    (hd : b.fields.get? p = some .empty) :
    is_backward_at b p = false := by
  unfold is_backward_at; rw [hd]

theorem is_backward_at_stack {b : Board} {p : Nat} {T : List Camel}
    (hd : b.fields.get? p = some (.stack T)) :
    is_backward_at b p = false := by
  unfold is_backward_at; rw [hd]

theorem is_jump_at_of_jump {b : Board} {p : Nat} {j : Jump} {o : Option String}
    (hd : b.fields.get? p = some (.jump j o)) : is_jump_at b p = true := by
  unfold is_jump_at; rw [hd]

/-- The full specification of one `apply_move_core` call on a camel that
is on the track with a well-formed board: either a carried group is merged
onto a tile field (two adjacent tiles; the Python TypeError), or the call
returns, and the returned board, reward and finish group are exactly the
derived split/landing/merge descriptions. -/
theorem apply_move_core_spec
    (b : Board) (cm : Camel) (steps start : Nat) (S : List Camel)
    (hwf : WellFormedIdx b)
    (hidx : b.index cm = some start) (hstart : start < BOARD_SIZE)
    (hsteps : 1 ≤ steps)
    (hS : b.fields.get? start = some (.stack S)) :
    (start + steps < BOARD_SIZE ∧
      (∃ o, (b.fields.get? (start + steps) = some (.jump .Forward o) ∧
          start + steps + 1 < BOARD_SIZE ∧
          is_jump_at b (start + steps + 1) = true) ∨
        (b.fields.get? (start + steps) = some (.jump .Backwards o) ∧
          start + steps - 1 ≠ start ∧
          is_jump_at b (start + steps - 1) = true)) ∧
      apply_move_core b ⟨cm, steps⟩ = .error .mergeOntoJump) ∨
    (∃ r, apply_move_core b ⟨cm, steps⟩ = .ok r ∧
      (∀ x ∈ split_ms S cm, r.board.index x = some (final_landing b start steps)) ∧
      (∀ x, x ∉ split_ms S cm → r.board.index x = b.index x) ∧
      r.winners = (if BOARD_SIZE ≤ final_landing b start steps
        then some (split_ms S cm) else none) ∧
      r.owner = jump_reward b start steps ∧
      (BOARD_SIZE ≤ final_landing b start steps →
        r.board.fields = origin_updated b start S cm) ∧
      (final_landing b start steps < BOARD_SIZE →
        r.board.fields = (origin_updated b start S cm).set
          (final_landing b start steps)
          (.stack (merge_result b start steps S cm)))) := by
  have hmem : cm ∈ S := wf_mem_origin hwf hidx hstart hS
  have hnd : S.Nodup := wf_stack_nodup hwf hstart hS
  have hmsnd : (split_ms S cm).Nodup := hnd.sublist (List.drop_sublist _ _)
  have hmssub : ∀ x ∈ split_ms S cm, x ∈ S :=
    fun x hx => (List.drop_sublist _ _).subset hx
  have hmsidx : ∀ x ∈ split_ms S cm, b.index x = some start :=
    fun x hx => wf_stack_member_index hwf hstart hS (hmssub x hx)
  obtain ⟨idx1, hb1, hchar1⟩ :=
    bump_all_ok (f := fun v => v + steps) b.index hmsnd
      (fun c hc => by rw [hmsidx c hc]; rfl)
  have hidx1_ms : ∀ x ∈ split_ms S cm, idx1 x = some (start + steps) := by
    intro x hx
    rw [hchar1 x, if_pos hx, hmsidx x hx]
    rfl
  have hidx1_o : ∀ x, x ∉ split_ms S cm → idx1 x = b.index x := by
    intro x hx
    rw [hchar1 x, if_neg hx]
  have hlen : b.fields.length = BOARD_SIZE := wfi_length hwf
  have hcore0 : apply_move_core b ⟨cm, steps⟩ =
      (if BOARD_SIZE ≤ start + steps then
        .ok ⟨⟨origin_updated b start S cm, idx1⟩, none, some (split_ms S cm)⟩
      else
        match (origin_updated b start S cm).get? (start + steps) with
        | none => .error .offTrack
        | some (.jump j o) =>
          (match j with
           | .Forward =>
             match bump_all idx1 (split_ms S cm) (fun v => v + 1) with
             | .error e => .error e
             | .ok idx2 =>
               if BOARD_SIZE ≤ start + steps + 1 then
                 .ok ⟨⟨origin_updated b start S cm, idx2⟩, o, some (split_ms S cm)⟩
               else merge_top (origin_updated b start S cm) idx2
                 (start + steps + 1) (split_ms S cm) o
           | .Backwards =>
             match bump_all idx1 (split_ms S cm) (fun v => v - 1) with
             | .error e => .error e
             | .ok idx2 =>
               if BOARD_SIZE ≤ start + steps - 1 then
                 .ok ⟨⟨origin_updated b start S cm, idx2⟩, o, some (split_ms S cm)⟩
               else
                 match (origin_updated b start S cm).get? (start + steps - 1) with
                 | none => .error .offTrack
                 | some .empty =>
                   .ok ⟨⟨(origin_updated b start S cm).set (start + steps - 1)
                     (.stack (split_ms S cm)), idx2⟩, o, none⟩
                 | some (.stack T) =>
                   .ok ⟨⟨(origin_updated b start S cm).set (start + steps - 1)
                     (.stack (split_ms S cm ++ T)), idx2⟩, o, none⟩
                 | some (.jump _ _) => .error .mergeOntoJump)
        | some .empty =>
          .ok ⟨⟨(origin_updated b start S cm).set (start + steps)
            (.stack (split_ms S cm)), idx1⟩, none, none⟩
        | some (.stack T) =>
          .ok ⟨⟨(origin_updated b start S cm).set (start + steps)
            (.stack (T ++ split_ms S cm)), idx1⟩, none, none⟩) := by
    simp only [apply_move_core, hidx, hS, split_ms, split_sl, origin_updated]
    rw [if_pos hmem]
    simp only [split_ms] at hb1
    rw [hb1]
  by_cases hge : BOARD_SIZE ≤ start + steps
  · -- the carried group crosses the line immediately
    have hFL := final_landing_finish (b := b) hge
    refine Or.inr ⟨⟨⟨origin_updated b start S cm, idx1⟩, none, some (split_ms S cm)⟩,
      ?_, ?_, ?_, ?_, ?_, ?_, ?_⟩
    · rw [hcore0, if_pos hge]
    · intro x hx
      show idx1 x = _
      rw [hFL]
      exact hidx1_ms x hx
    · intro x hx
      exact hidx1_o x hx
    · show some (split_ms S cm) = _
      rw [hFL, if_pos hge]
    · show (none : Option String) = _
      rw [jump_reward_finish hge]
    · intro _; rfl
    · intro hco; rw [hFL] at hco; omega
  · -- the landing field is inspected
    have hElt : start + steps < BOARD_SIZE := by omega
    have hEstart : start + steps ≠ start := by omega
    have hF1E : (origin_updated b start S cm).get? (start + steps) =
        b.fields.get? (start + steps) := by
      unfold origin_updated
      exact get?_set_other _ _ (fun h => hEstart h.symm)
    cases hd : b.fields.get? (start + steps) with
    | none =>
      exfalso
      rw [List.get?_eq_none] at hd
      omega
    | some f =>
      cases f with
      | empty =>
        have hFL := final_landing_empty (b := b) hge hd
        have hT : stack_at_list (origin_updated b start S cm) (start + steps) = [] := by
          unfold stack_at_list
          rw [hF1E.trans hd]
        refine Or.inr ⟨⟨⟨(origin_updated b start S cm).set (start + steps)
          (.stack (split_ms S cm)), idx1⟩, none, none⟩, ?_, ?_, ?_, ?_, ?_, ?_, ?_⟩
        · rw [hcore0, if_neg hge, hF1E.trans hd]
        · intro x hx
          show idx1 x = _
          rw [hFL]
          exact hidx1_ms x hx
        · intro x hx
          exact hidx1_o x hx
        · show (none : Option (List Camel)) = _
          rw [hFL, if_neg hge]
        · show (none : Option String) = _
          rw [jump_reward_empty hge hd]
        · intro hco; rw [hFL] at hco; omega
        · intro _
          unfold merge_result
          rw [is_backward_at_empty hd, if_neg (by simp), hFL, hT,
            List.nil_append]
      | stack T =>
        have hFL := final_landing_stack (b := b) hge hd
        have hT : stack_at_list (origin_updated b start S cm) (start + steps) = T := by
          unfold stack_at_list
          rw [hF1E.trans hd]
        refine Or.inr ⟨⟨⟨(origin_updated b start S cm).set (start + steps)
          (.stack (T ++ split_ms S cm)), idx1⟩, none, none⟩, ?_, ?_, ?_, ?_, ?_, ?_, ?_⟩
        · rw [hcore0, if_neg hge, hF1E.trans hd]
        · intro x hx
          show idx1 x = _
          rw [hFL]
          exact hidx1_ms x hx
        · intro x hx
          exact hidx1_o x hx
        · show (none : Option (List Camel)) = _
          rw [hFL, if_neg hge]
        · show (none : Option String) = _
          rw [jump_reward_stack hge hd]
        · intro hco; rw [hFL] at hco; omega
        · intro _
          unfold merge_result
          rw [is_backward_at_stack hd, if_neg (by simp), hFL, hT]
      | jump j o =>
        obtain ⟨idx2f, hb2f, hchar2f⟩ :=
          bump_all_ok (f := fun v => v + 1) idx1 hmsnd
            (fun c hc => by rw [hidx1_ms c hc]; rfl)
        obtain ⟨idx2b, hb2b, hchar2b⟩ :=
          bump_all_ok (f := fun v => v - 1) idx1 hmsnd
            (fun c hc => by rw [hidx1_ms c hc]; rfl)
        cases j with
        | Forward =>
          have hFL := final_landing_fwd (b := b) hge hd
          have hidx2_ms : ∀ x ∈ split_ms S cm, idx2f x = some (start + steps + 1) := by
            intro x hx
            rw [hchar2f x, if_pos hx, hidx1_ms x hx]
            rfl
          have hidx2_o : ∀ x, x ∉ split_ms S cm → idx2f x = b.index x := by
            intro x hx
            rw [hchar2f x, if_neg hx]
            exact hidx1_o x hx
          by_cases h2 : BOARD_SIZE ≤ start + steps + 1
          · refine Or.inr ⟨⟨⟨origin_updated b start S cm, idx2f⟩, o, some (split_ms S cm)⟩,
              ?_, ?_, ?_, ?_, ?_, ?_, ?_⟩
            · rw [hcore0, if_neg hge, hF1E.trans hd]
              dsimp only
              rw [hb2f]
              dsimp only
              rw [if_pos h2]
            · intro x hx
              show idx2f x = _
              rw [hFL]
              exact hidx2_ms x hx
            · intro x hx
              exact hidx2_o x hx
            · show some (split_ms S cm) = _
              rw [hFL, if_pos h2]
            · show o = _
              rw [jump_reward_jump hge hd]
            · intro _; rfl
            · intro hco; rw [hFL] at hco; omega
          · have h2lt : start + steps + 1 < BOARD_SIZE := by omega
            have hne2 : start ≠ start + steps + 1 := by omega
            have hF1E2 : (origin_updated b start S cm).get? (start + steps + 1) =
                b.fields.get? (start + steps + 1) := by
              unfold origin_updated
              exact get?_set_other _ _ hne2
            cases hd2 : b.fields.get? (start + steps + 1) with
            | none =>
              exfalso
              rw [List.get?_eq_none] at hd2
              omega
            | some f2 =>
              cases f2 with
              | empty =>
                have hT : stack_at_list (origin_updated b start S cm)
                    (start + steps + 1) = [] := by
                  unfold stack_at_list
                  rw [hF1E2.trans hd2]
                refine Or.inr ⟨⟨⟨(origin_updated b start S cm).set (start + steps + 1)
                  (.stack (split_ms S cm)), idx2f⟩, o, none⟩, ?_, ?_, ?_, ?_, ?_, ?_, ?_⟩
                · rw [hcore0, if_neg hge, hF1E.trans hd]
                  dsimp only
                  rw [hb2f]
                  dsimp only
                  rw [if_neg h2]
                  unfold merge_top
                  rw [hF1E2.trans hd2]
                · intro x hx
                  show idx2f x = _
                  rw [hFL]
                  exact hidx2_ms x hx
                · intro x hx
                  exact hidx2_o x hx
                · show (none : Option (List Camel)) = _
                  rw [hFL, if_neg h2]
                · show o = _
                  rw [jump_reward_jump hge hd]
                · intro hco; rw [hFL] at hco; omega
                · intro _
                  unfold merge_result
                  rw [is_backward_at_fwd hd, if_neg (by simp), hFL, hT,
                    List.nil_append]
              | stack T =>
                have hT : stack_at_list (origin_updated b start S cm)
                    (start + steps + 1) = T := by
                  unfold stack_at_list
                  rw [hF1E2.trans hd2]
                refine Or.inr ⟨⟨⟨(origin_updated b start S cm).set (start + steps + 1)
                  (.stack (T ++ split_ms S cm)), idx2f⟩, o, none⟩, ?_, ?_, ?_, ?_, ?_, ?_, ?_⟩
                · rw [hcore0, if_neg hge, hF1E.trans hd]
                  dsimp only
                  rw [hb2f]
                  dsimp only
                  rw [if_neg h2]
                  unfold merge_top
                  rw [hF1E2.trans hd2]
                · intro x hx
                  show idx2f x = _
                  rw [hFL]
                  exact hidx2_ms x hx
                · intro x hx
                  exact hidx2_o x hx
                · show (none : Option (List Camel)) = _
                  rw [hFL, if_neg h2]
                · show o = _
                  rw [jump_reward_jump hge hd]
                · intro hco; rw [hFL] at hco; omega
                · intro _
                  unfold merge_result
                  rw [is_backward_at_fwd hd, if_neg (by simp), hFL, hT]
              | jump j2 o2 =>
                refine Or.inl ⟨hElt, ⟨o, Or.inl ⟨rfl, h2lt, is_jump_at_of_jump hd2⟩⟩, ?_⟩
                rw [hcore0, if_neg hge, hF1E.trans hd]
                dsimp only
                rw [hb2f]
                dsimp only
                rw [if_neg h2]
                unfold merge_top
                rw [hF1E2.trans hd2]
        | Backwards =>
          have hFL := final_landing_bwd (b := b) hge hd
          have hidx2_ms : ∀ x ∈ split_ms S cm, idx2b x = some (start + steps - 1) := by
            intro x hx
            rw [hchar2b x, if_pos hx, hidx1_ms x hx]
            rfl
          have hidx2_o : ∀ x, x ∉ split_ms S cm → idx2b x = b.index x := by
            intro x hx
            rw [hchar2b x, if_neg hx]
            exact hidx1_o x hx
          have h2 : ¬ BOARD_SIZE ≤ start + steps - 1 := by omega
          have h2lt : start + steps - 1 < BOARD_SIZE := by omega
          by_cases hes : start + steps - 1 = start
          · -- the Backwards shift lands the group back on its origin field
            have hget : (origin_updated b start S cm).get? (start + steps - 1) =
                some (if (split_sl S cm).isEmpty then .empty
                  else .stack (split_sl S cm)) := by
              rw [hes]
              unfold origin_updated
              exact get?_set_self _ _ _ (by omega)
            by_cases hslE : (split_sl S cm).isEmpty
            · have hget2 : (origin_updated b start S cm).get? (start + steps - 1) =
                  some .empty := by rw [hget, if_pos hslE]
              have hT : stack_at_list (origin_updated b start S cm)
                  (start + steps - 1) = [] := by
                unfold stack_at_list
                rw [hget2]
              refine Or.inr ⟨⟨⟨(origin_updated b start S cm).set (start + steps - 1)
                (.stack (split_ms S cm)), idx2b⟩, o, none⟩, ?_, ?_, ?_, ?_, ?_, ?_, ?_⟩
              · rw [hcore0, if_neg hge, hF1E.trans hd]
                dsimp only
                rw [hb2b]
                dsimp only
                rw [if_neg h2, hget2]
              · intro x hx
                show idx2b x = _
                rw [hFL]
                exact hidx2_ms x hx
              · intro x hx
                exact hidx2_o x hx
              · show (none : Option (List Camel)) = _
                rw [hFL, if_neg h2]
              · show o = _
                rw [jump_reward_jump hge hd]
              · intro hco; rw [hFL] at hco; omega
              · intro _
                unfold merge_result
                rw [is_backward_at_bwd hd, if_pos rfl, hFL, hT, List.append_nil]
            · have hget2 : (origin_updated b start S cm).get? (start + steps - 1) =
                  some (.stack (split_sl S cm)) := by rw [hget, if_neg hslE]
              have hT : stack_at_list (origin_updated b start S cm)
                  (start + steps - 1) = split_sl S cm := by
                unfold stack_at_list
                rw [hget2]
              refine Or.inr ⟨⟨⟨(origin_updated b start S cm).set (start + steps - 1)
                (.stack (split_ms S cm ++ split_sl S cm)), idx2b⟩, o, none⟩,
                ?_, ?_, ?_, ?_, ?_, ?_, ?_⟩
              · rw [hcore0, if_neg hge, hF1E.trans hd]
                dsimp only
                rw [hb2b]
                dsimp only
                rw [if_neg h2, hget2]
              · intro x hx
                show idx2b x = _
                rw [hFL]
                exact hidx2_ms x hx
              · intro x hx
                exact hidx2_o x hx
              · show (none : Option (List Camel)) = _
                rw [hFL, if_neg h2]
              · show o = _
                rw [jump_reward_jump hge hd]
              · intro hco; rw [hFL] at hco; omega
              · intro _
                unfold merge_result
                rw [is_backward_at_bwd hd, if_pos rfl, hFL, hT]
          · have hF1E2 : (origin_updated b start S cm).get? (start + steps - 1) =
                b.fields.get? (start + steps - 1) := by
              unfold origin_updated
              exact get?_set_other _ _ (fun h => hes h.symm)
            cases hd2 : b.fields.get? (start + steps - 1) with
            | none =>
              exfalso
              rw [List.get?_eq_none] at hd2
              omega
            | some f2 =>
              cases f2 with
              | empty =>
                have hT : stack_at_list (origin_updated b start S cm)
                    (start + steps - 1) = [] := by
                  unfold stack_at_list
                  rw [hF1E2.trans hd2]
                refine Or.inr ⟨⟨⟨(origin_updated b start S cm).set (start + steps - 1)
                  (.stack (split_ms S cm)), idx2b⟩, o, none⟩, ?_, ?_, ?_, ?_, ?_, ?_, ?_⟩
                · rw [hcore0, if_neg hge, hF1E.trans hd]
                  dsimp only
                  rw [hb2b]
                  dsimp only
                  rw [if_neg h2, hF1E2.trans hd2]
                · intro x hx
                  show idx2b x = _
                  rw [hFL]
                  exact hidx2_ms x hx
                · intro x hx
                  exact hidx2_o x hx
                · show (none : Option (List Camel)) = _
                  rw [hFL, if_neg h2]
                · show o = _
                  rw [jump_reward_jump hge hd]
                · intro hco; rw [hFL] at hco; omega
                · intro _
                  unfold merge_result
                  rw [is_backward_at_bwd hd, if_pos rfl, hFL, hT, List.append_nil]
              | stack T =>
                have hT : stack_at_list (origin_updated b start S cm)
                    (start + steps - 1) = T := by
                  unfold stack_at_list
                  rw [hF1E2.trans hd2]
                refine Or.inr ⟨⟨⟨(origin_updated b start S cm).set (start + steps - 1)
                  (.stack (split_ms S cm ++ T)), idx2b⟩, o, none⟩, ?_, ?_, ?_, ?_, ?_, ?_, ?_⟩
                · rw [hcore0, if_neg hge, hF1E.trans hd]
                  dsimp only
                  rw [hb2b]
                  dsimp only
                  rw [if_neg h2, hF1E2.trans hd2]
                · intro x hx
                  show idx2b x = _
                  rw [hFL]
                  exact hidx2_ms x hx
                · intro x hx
                  exact hidx2_o x hx
                · show (none : Option (List Camel)) = _
                  rw [hFL, if_neg h2]
                · show o = _
                  rw [jump_reward_jump hge hd]
                · intro hco; rw [hFL] at hco; omega
                · intro _
                  unfold merge_result
                  rw [is_backward_at_bwd hd, if_pos rfl, hFL, hT]
              | jump j2 o2 =>
                refine Or.inl ⟨hElt, ⟨o, Or.inr ⟨rfl, hes, is_jump_at_of_jump hd2⟩⟩, ?_⟩
                rw [hcore0, if_neg hge, hF1E.trans hd]
                dsimp only
                rw [hb2b]
                dsimp only
                rw [if_neg h2, hF1E2.trans hd2]

/-- Well-formedness is preserved by any board whose index and fields are
exactly the split/landing/merge descriptions of one subsequent move. -/
theorem wfi_preserved_subsequent
    (b : Board) (cm : Camel) (steps start : Nat) (S : List Camel) (rb : Board)
    (hwf : WellFormedIdx b)
    (hidx : b.index cm = some start) (hstart : start < BOARD_SIZE)
    (hS : b.fields.get? start = some (.stack S))
    (hidxm : ∀ x ∈ split_ms S cm, rb.index x = some (final_landing b start steps))
    (hidxo : ∀ x, x ∉ split_ms S cm → rb.index x = b.index x)
    (hffin : BOARD_SIZE ≤ final_landing b start steps →
      rb.fields = origin_updated b start S cm)
    (hfmid : final_landing b start steps < BOARD_SIZE →
      rb.fields = (origin_updated b start S cm).set (final_landing b start steps)
        (.stack (merge_result b start steps S cm))) :
    WellFormedIdx rb := by
  have hnd : S.Nodup := wf_stack_nodup hwf hstart hS
  have hlen : b.fields.length = BOARD_SIZE := wfi_length hwf
  have hsplit : split_sl S cm ++ split_ms S cm = S := List.take_append_drop _ S
  have hndapp : (split_sl S cm ++ split_ms S cm).Nodup := by rw [hsplit]; exact hnd
  have hdisj : ∀ x ∈ split_sl S cm, x ∉ split_ms S cm :=
    fun x hx hx2 => List.disjoint_of_nodup_append hndapp hx hx2
  have hcount_split : ∀ x : Camel,
      S.count x = (split_sl S cm).count x + (split_ms S cm).count x := by
    intro x
    conv_lhs => rw [← hsplit]
    exact List.count_append x _ _
  have hSLsub : ∀ x ∈ split_sl S cm, x ∈ S :=
    fun x hx => (List.take_sublist _ _).subset hx
  have hMSsub : ∀ x ∈ split_ms S cm, x ∈ S :=
    fun x hx => (List.drop_sublist _ _).subset hx
  have hSLle : ∀ x : Camel, (split_sl S cm).count x ≤ S.count x :=
    fun x => (List.take_sublist _ _).count_le x
  have hMSidx : ∀ x ∈ split_ms S cm, b.index x = some start :=
    fun x hx => wf_stack_member_index hwf hstart hS (hMSsub x hx)
  have hMSnd : (split_ms S cm).Nodup := hnd.sublist (List.drop_sublist _ _)
  have hOUlen : (origin_updated b start S cm).length = BOARD_SIZE := by
    unfold origin_updated
    rw [List.length_set]
    exact hlen
  have hOUstart : stack_at_list (origin_updated b start S cm) start = split_sl S cm := by
    by_cases hE : (split_sl S cm).isEmpty
    · have h1 : (origin_updated b start S cm).get? start = some .empty := by
        unfold origin_updated
        rw [get?_set_self _ _ _ (by omega), if_pos hE]
      unfold stack_at_list
      rw [h1, List.isEmpty_iff.mp hE]
    · have h1 : (origin_updated b start S cm).get? start =
          some (.stack (split_sl S cm)) := by
        unfold origin_updated
        rw [get?_set_self _ _ _ (by omega), if_neg hE]
      unfold stack_at_list
      rw [h1]
  have hOUother : ∀ q, q ≠ start →
      stack_at_list (origin_updated b start S cm) q = stack_list_at b q := by
    intro q hq
    unfold origin_updated
    exact stack_at_list_set_ne _ (fun h => hq h.symm)
  -- count of the new stack at any position, in both shapes of rb.fields
  by_cases hFL16 : BOARD_SIZE ≤ final_landing b start steps
  · -- finish: the carried group leaves the track
    have hrf : rb.fields = origin_updated b start S cm := hffin hFL16
    have hrbq : ∀ q, stack_at_list rb.fields q =
        stack_at_list (origin_updated b start S cm) q := by
      intro q; rw [hrf]
    refine ⟨by rw [hrf]; exact hOUlen, ?_, ?_⟩
    · intro c p hc hp
      by_cases hcMS : c ∈ split_ms S cm
      · exfalso
        have := hidxm c hcMS
        rw [hc] at this
        injection this with h
        omega
      · have hbc : b.index c = some p := by rw [← hidxo c hcMS]; exact hc
        have old := wfi_count hwf hbc hp
        constructor
        · show (stack_at_list rb.fields p).count c = 1
          rw [hrbq p]
          by_cases hps : p = start
          · rw [hps, hOUstart]
            have hbc2 : b.index c = some start := by rw [← hps]; exact hbc
            have h1 : S.count c = 1 := wf_count_origin hwf hbc2 hstart hS
            have hms0 : (split_ms S cm).count c = 0 := List.count_eq_zero.mpr hcMS
            have := hcount_split c
            omega
          · rw [hOUother p hps]
            exact old.1
        · intro q hq hqp
          show (stack_at_list rb.fields q).count c = 0
          rw [hrbq q]
          by_cases hqs : q = start
          · rw [hqs, hOUstart]
            have h0 : count_at b start c = 0 :=
              old.2 start (by omega) (by rw [← hqs]; exact hqp)
            rw [count_at_of_stack hS] at h0
            have := hSLle c
            omega
          · rw [hOUother q hqs]
            exact old.2 q hq hqp
    · intro p hp c hcm
      unfold stack_list_at at hcm
      rw [hrbq p] at hcm
      by_cases hps : p = start
      · rw [hps, hOUstart] at hcm
        have hcS : b.index c = some start :=
          wf_stack_member_index hwf hstart hS (hSLsub c hcm)
        rw [hidxo c (hdisj c hcm), hcS, hps]
      · rw [hOUother p hps] at hcm
        have hcp : b.index c = some p := wfi_coh hwf hp hcm
        have hcMS : c ∉ split_ms S cm := by
          intro hm
          have := hMSidx c hm
          rw [hcp] at this
          injection this with h
          exact hps h
        rw [hidxo c hcMS]
        exact hcp
  · -- merge: the carried group lands on the track
    have hFLlt : final_landing b start steps < BOARD_SIZE := by omega
    have hrf : rb.fields = (origin_updated b start S cm).set
        (final_landing b start steps)
        (.stack (merge_result b start steps S cm)) := hfmid hFLlt
    have hMRcount : ∀ x : Camel, (merge_result b start steps S cm).count x =
        (split_ms S cm).count x +
        (stack_at_list (origin_updated b start S cm)
          (final_landing b start steps)).count x := by
      intro x
      unfold merge_result
      by_cases hbk : is_backward_at b (start + steps) = true
      · rw [if_pos hbk, List.count_append]
      · rw [if_neg hbk, List.count_append]
        omega
    have hMRmem : ∀ x : Camel, x ∈ merge_result b start steps S cm ↔
        x ∈ split_ms S cm ∨
        x ∈ stack_at_list (origin_updated b start S cm)
          (final_landing b start steps) := by
      intro x
      unfold merge_result
      by_cases hbk : is_backward_at b (start + steps) = true
      · rw [if_pos hbk, List.mem_append]
      · rw [if_neg hbk, List.mem_append]
        exact Or.comm
    have hrbFL : stack_at_list rb.fields (final_landing b start steps) =
        merge_result b start steps S cm := by
      rw [hrf]
      exact stack_at_list_set_self _ (by omega)
    have hrbq : ∀ q, q ≠ final_landing b start steps →
        stack_at_list rb.fields q =
        stack_at_list (origin_updated b start S cm) q := by
      intro q hq
      rw [hrf]
      exact stack_at_list_set_ne _ (fun h => hq h.symm)
    -- the count of the landing-field occupants, for a camel indexed at start
    have hTcount0 : ∀ c ∈ split_ms S cm,
        (stack_at_list (origin_updated b start S cm)
          (final_landing b start steps)).count c = 0 := by
      intro c hcMS
      by_cases hFLs : final_landing b start steps = start
      · rw [hFLs, hOUstart]
        exact List.count_eq_zero.mpr (fun hin => hdisj c hin hcMS)
      · rw [hOUother _ hFLs]
        have oldc := wfi_count hwf (hMSidx c hcMS) hstart
        have h0 : count_at b (final_landing b start steps) c = 0 :=
          oldc.2 _ (by omega) hFLs
        unfold count_at at h0
        exact h0
    refine ⟨by rw [hrf, List.length_set]; exact hOUlen, ?_, ?_⟩
    · intro c p hc hp
      by_cases hcMS : c ∈ split_ms S cm
      · -- a carried camel: indexed exactly at the final landing field
        have hpFL : p = final_landing b start steps :=
          Option.some.inj (hc.symm.trans (hidxm c hcMS))
        have oldc := wfi_count hwf (hMSidx c hcMS) hstart
        constructor
        · show (stack_at_list rb.fields p).count c = 1
          rw [hpFL, hrbFL, hMRcount c]
          have h1 : (split_ms S cm).count c = 1 :=
            List.count_eq_one_of_mem hMSnd hcMS
          have h0 := hTcount0 c hcMS
          omega
        · intro q hq hqp
          show (stack_at_list rb.fields q).count c = 0
          rw [hrbq q (by rw [← hpFL]; exact hqp)]
          by_cases hqs : q = start
          · rw [hqs, hOUstart]
            exact List.count_eq_zero.mpr (fun hin => hdisj c hin hcMS)
          · rw [hOUother q hqs]
            exact oldc.2 q hq hqs
      · -- a camel that stayed put
        have hbc : b.index c = some p := by rw [← hidxo c hcMS]; exact hc
        have old := wfi_count hwf hbc hp
        have hms0 : (split_ms S cm).count c = 0 := List.count_eq_zero.mpr hcMS
        -- the occupants of any position q, counted for c, equal the old count
        have hOUcount : ∀ q, q < BOARD_SIZE →
            (stack_at_list (origin_updated b start S cm) q).count c =
            count_at b q c := by
          intro q hq
          by_cases hqs : q = start
          · rw [hqs, hOUstart, count_at_of_stack hS]
            have := hcount_split c
            omega
          · rw [hOUother q hqs]
            rfl
        constructor
        · show (stack_at_list rb.fields p).count c = 1
          by_cases hpFL : p = final_landing b start steps
          · rw [hpFL, hrbFL, hMRcount c, hOUcount _ (by omega)]
            rw [← hpFL]
            have := old.1
            omega
          · rw [hrbq p hpFL, hOUcount p hp]
            exact old.1
        · intro q hq hqp
          show (stack_at_list rb.fields q).count c = 0
          by_cases hqFL : q = final_landing b start steps
          · rw [hqFL, hrbFL, hMRcount c, hOUcount _ (by omega)]
            rw [← hqFL]
            have := old.2 q hq hqp
            omega
          · rw [hrbq q hqFL, hOUcount q hq]
            exact old.2 q hq hqp
    · intro p hp c hcm
      unfold stack_list_at at hcm
      by_cases hpFL : p = final_landing b start steps
      · rw [hpFL, hrbFL] at hcm
        rcases (hMRmem c).mp hcm with hin | hin
        · rw [hidxm c hin, hpFL]
        · by_cases hFLs : final_landing b start steps = start
          · rw [hFLs, hOUstart] at hin
            have hcS : b.index c = some start :=
              wf_stack_member_index hwf hstart hS (hSLsub c hin)
            rw [hidxo c (hdisj c hin), hcS, hpFL, hFLs]
          · rw [hOUother _ hFLs] at hin
            have hcp : b.index c = some (final_landing b start steps) :=
              wfi_coh hwf (by omega) hin
            have hcMS : c ∉ split_ms S cm := by
              intro hm
              have := hMSidx c hm
              rw [hcp] at this
              injection this with h
              exact hFLs h
            rw [hidxo c hcMS, hcp, hpFL]
      · rw [hrbq p hpFL] at hcm
        by_cases hps : p = start
        · rw [hps, hOUstart] at hcm
          have hcS : b.index c = some start :=
            wf_stack_member_index hwf hstart hS (hSLsub c hcm)
          rw [hidxo c (hdisj c hcm), hcS, hps]
        · rw [hOUother p hps] at hcm
          have hcp : b.index c = some p := wfi_coh hwf hp hcm
          have hcMS : c ∉ split_ms S cm := by
            intro hm
            have := hMSidx c hm
            rw [hcp] at this
            injection this with h
            exact hps h
          rw [hidxo c hcMS]
          exact hcp

/-- The full specification of `apply_move` (decorator included) for a
subsequent move of an on-track camel on a well-formed board. -/
theorem apply_move_spec
    (b : Board) (cm : Camel) (steps start : Nat) (S : List Camel)
    (hwf : WellFormedIdx b)
    (hidx : b.index cm = some start) (hstart : start < BOARD_SIZE)
    (hsteps : 1 ≤ steps)
    (hS : b.fields.get? start = some (.stack S)) :
    (start + steps < BOARD_SIZE ∧
      (∃ o, (b.fields.get? (start + steps) = some (.jump .Forward o) ∧
          start + steps + 1 < BOARD_SIZE ∧
          is_jump_at b (start + steps + 1) = true) ∨
        (b.fields.get? (start + steps) = some (.jump .Backwards o) ∧
          start + steps - 1 ≠ start ∧
          is_jump_at b (start + steps - 1) = true)) ∧
      apply_move b ⟨cm, steps⟩ = .error .mergeOntoJump) ∨
    (∃ r, apply_move b ⟨cm, steps⟩ = .ok r ∧
      (∀ x ∈ split_ms S cm, r.board.index x = some (final_landing b start steps)) ∧
      (∀ x, x ∉ split_ms S cm → r.board.index x = b.index x) ∧
      r.winners = (if BOARD_SIZE ≤ final_landing b start steps
        then some (split_ms S cm) else none) ∧
      r.owner = jump_reward b start steps ∧
      (BOARD_SIZE ≤ final_landing b start steps →
        r.board.fields = origin_updated b start S cm) ∧
      (final_landing b start steps < BOARD_SIZE →
        r.board.fields = (origin_updated b start S cm).set
          (final_landing b start steps)
          (.stack (merge_result b start steps S cm))) ∧
      WellFormedIdx r.board) := by
  rcases apply_move_core_spec b cm steps start S hwf hidx hstart hsteps hS with
    ⟨hElt, hjj, herr⟩ | ⟨r, hok, h1, h2, h3, h4, h5, h6⟩
  · left
    refine ⟨hElt, hjj, ?_⟩
    unfold apply_move
    rw [herr]
  · right
    have hwfr : WellFormedIdx r.board :=
      wfi_preserved_subsequent b cm steps start S r.board hwf hidx hstart hS
        h1 h2 h5 h6
    refine ⟨r, ?_, h1, h2, h3, h4, h5, h6, hwfr⟩
    unfold apply_move
    rw [hok]
    dsimp only
    rw [if_pos (validate_board_of_wfi hwfr)]

/-- The full specification of `apply_move` for the first move of a camel:
the camel is placed at `steps - 1`, on top of any stack there; the call
fails exactly when that field holds a tile. -/
theorem apply_move_first_spec
    (b : Board) (cm : Camel) (steps : Nat)
    (hwf : WellFormedIdx b)
    (hnotin : b.index cm = none)
    (hsteps1 : 1 ≤ steps) (hsteps3 : steps ≤ 3) :
    (∀ j o, b.fields.get? (steps - 1) = some (.jump j o) →
      apply_move b ⟨cm, steps⟩ = .error .jumpAtStart) ∧
    (∀ f, b.fields.get? (steps - 1) = some f → (∀ j o, f ≠ .jump j o) →
      ∃ r, apply_move b ⟨cm, steps⟩ = .ok r ∧
        r.board.index cm = some (steps - 1) ∧
        (∀ x, x ≠ cm → r.board.index x = b.index x) ∧
        r.board.fields = b.fields.set (steps - 1)
          (.stack (stack_at_list b.fields (steps - 1) ++ [cm])) ∧
        r.owner = none ∧ r.winners = none ∧
        WellFormedIdx r.board) := by
  have hlen : b.fields.length = BOARD_SIZE := wfi_length hwf
  have hposlt : steps - 1 < BOARD_SIZE := by
    have hB : BOARD_SIZE = 16 := rfl
    omega
  have hnostack : ∀ q, q < BOARD_SIZE → cm ∉ stack_list_at b q := by
    intro q hq hmem
    have := wfi_coh hwf hq hmem
    rw [hnotin] at this
    cases this
  constructor
  · intro j o hj
    unfold apply_move apply_move_core
    rw [hnotin]
    dsimp only
    rw [hj]
  · intro f hf hnj
    have hwfr : WellFormedIdx ⟨b.fields.set (steps - 1)
        (.stack (stack_at_list b.fields (steps - 1) ++ [cm])),
        idx_set b.index cm (steps - 1)⟩ := by
      have hTsub : ∀ x ∈ stack_at_list b.fields (steps - 1),
          b.index x = some (steps - 1) :=
        fun x hx => wfi_coh hwf hposlt hx
      have hTnotcm : cm ∉ stack_at_list b.fields (steps - 1) :=
        fun hx => hnostack _ hposlt hx
      refine ⟨by rw [List.length_set]; exact hlen, ?_, ?_⟩
      · intro c p hc hp
        dsimp only at hc
        by_cases hccm : c = cm
        · have hppos : p = steps - 1 := by
            rw [hccm, idx_set_self] at hc
            exact (Option.some.inj hc).symm
          constructor
          · show (stack_at_list _ p).count c = 1
            rw [hppos, stack_at_list_set_self _ (by rw [hlen]; omega),
              List.count_append, hccm, List.count_eq_zero.mpr hTnotcm]
            simp
          · intro q hq hqp
            show (stack_at_list _ q).count c = 0
            rw [hppos] at hqp
            rw [stack_at_list_set_ne _ (fun h => hqp h.symm), hccm]
            exact List.count_eq_zero.mpr (hnostack q hq)
        · have hbc : b.index c = some p := by
            rw [idx_set_ne _ _ hccm] at hc
            exact hc
          have old := wfi_count hwf hbc hp
          have hcnt : ∀ q, q < BOARD_SIZE →
              (stack_at_list (b.fields.set (steps - 1)
                (.stack (stack_at_list b.fields (steps - 1) ++ [cm]))) q).count c
              = count_at b q c := by
            intro q hq
            by_cases hqpos : q = steps - 1
            · rw [hqpos, stack_at_list_set_self _ (by rw [hlen]; omega),
                List.count_append]
              have hone : List.count c [cm] = 0 := by simp [hccm]
              rw [hone]
              unfold count_at stack_list_at
              omega
            · rw [stack_at_list_set_ne _ (fun h => hqpos h.symm)]
              rfl
          constructor
          · show (stack_at_list _ p).count c = 1
            rw [hcnt p hp]
            exact old.1
          · intro q hq hqp
            show (stack_at_list _ q).count c = 0
            rw [hcnt q hq]
            exact old.2 q hq hqp
      · intro p hp c hcm2
        unfold stack_list_at at hcm2
        by_cases hppos : p = steps - 1
        · rw [hppos, stack_at_list_set_self _ (by rw [hlen]; omega)] at hcm2
          show idx_set b.index cm (steps - 1) c = some p
          rcases List.mem_append.mp hcm2 with hin | hin
          · have hcidx := hTsub c hin
            have hccm : c ≠ cm := fun h => hTnotcm (h ▸ hin)
            rw [idx_set_ne _ _ hccm, hppos]
            exact hcidx
          · have hccm : c = cm := List.mem_singleton.mp hin
            rw [hccm, idx_set_self, hppos]
        · rw [stack_at_list_set_ne _ (fun h => hppos h.symm)] at hcm2
          have hcidx : b.index c = some p := wfi_coh hwf hp hcm2
          have hccm : c ≠ cm := fun h => hnostack p hp (h ▸ hcm2)
          show idx_set b.index cm (steps - 1) c = some p
          rw [idx_set_ne _ _ hccm]
          exact hcidx
    have hv := validate_board_of_wfi hwfr
    cases f with
    | jump j o => exact absurd rfl (hnj j o)
    | empty =>
      have hT : stack_at_list b.fields (steps - 1) = [] := by
        unfold stack_at_list
        rw [hf]
      refine ⟨⟨⟨b.fields.set (steps - 1)
        (.stack (stack_at_list b.fields (steps - 1) ++ [cm])),
        idx_set b.index cm (steps - 1)⟩, none, none⟩, ?_, ?_, ?_, rfl, rfl, rfl, hwfr⟩
      · rw [hT, List.nil_append] at hv
        unfold apply_move apply_move_core
        rw [hnotin]
        dsimp only
        rw [hf]
        dsimp only
        rw [hT, List.nil_append, if_pos hv]
      · exact idx_set_self b.index cm (steps - 1)
      · intro x hx
        exact idx_set_ne b.index _ hx
    | stack cs =>
      have hT : stack_at_list b.fields (steps - 1) = cs := by
        unfold stack_at_list
        rw [hf]
      refine ⟨⟨⟨b.fields.set (steps - 1)
        (.stack (stack_at_list b.fields (steps - 1) ++ [cm])),
        idx_set b.index cm (steps - 1)⟩, none, none⟩, ?_, ?_, ?_, rfl, rfl, rfl, hwfr⟩
      · rw [hT] at hv
        unfold apply_move apply_move_core
        rw [hnotin]
        dsimp only
        rw [hf]
        dsimp only
        rw [hT, if_pos hv]
      · exact idx_set_self b.index cm (steps - 1)
      · intro x hx
        exact idx_set_ne b.index _ hx

theorem apply_move_err_of_core {b : Board} {mv : Move} {e : MoveError}
    (hcore : apply_move_core b mv = .error e) : apply_move b mv = .error e := by
  unfold apply_move
  rw [hcore]

theorem wf_stack_exists {b : Board} (hwf : WellFormedIdx b) {c : Camel} {p : Nat}
    (hc : b.index c = some p) (hp : p < BOARD_SIZE) :
    ∃ S, b.fields.get? p = some (.stack S) := by
  have h1 := (wfi_count hwf hc hp).1
  unfold count_at stack_list_at stack_at_list at h1
  cases hf : b.fields.get? p with
  | none => rw [hf] at h1; simp at h1
  | some f =>
    cases f with
    | stack cs => exact ⟨cs, rfl⟩
    | empty => rw [hf] at h1; simp at h1
    | jump j o => rw [hf] at h1; simp at h1

/-- The carried group starts with the moved camel itself. -/
theorem split_ms_head {S : List Camel} {cm : Camel} (h : cm ∈ S) :
    ∃ above, split_ms S cm = cm :: above := by
  unfold split_ms
  have hlt : S.indexOf cm < S.length := List.indexOf_lt_length.mpr h
  refine ⟨S.drop (S.indexOf cm + 1), ?_⟩
  rw [List.drop_eq_getElem_cons hlt]
  congr 1
  exact List.getElem_indexOf hlt

/-- On a fully well-formed board (tile adjacency included), a subsequent
move of an on-track camel always returns, with the full specification. -/
theorem apply_move_ok_spec
    (b : Board) (cm : Camel) (steps start : Nat) (S : List Camel)
    (hwf : WellFormed b)
    (hidx : b.index cm = some start) (hstart : start < BOARD_SIZE)
    (hsteps : 1 ≤ steps)
    (hS : b.fields.get? start = some (.stack S)) :
    ∃ r, apply_move b ⟨cm, steps⟩ = .ok r ∧
      (∀ x ∈ split_ms S cm, r.board.index x = some (final_landing b start steps)) ∧
      (∀ x, x ∉ split_ms S cm → r.board.index x = b.index x) ∧
      r.winners = (if BOARD_SIZE ≤ final_landing b start steps
        then some (split_ms S cm) else none) ∧
      r.owner = jump_reward b start steps ∧
      (BOARD_SIZE ≤ final_landing b start steps →
        r.board.fields = origin_updated b start S cm) ∧
      (final_landing b start steps < BOARD_SIZE →
        r.board.fields = (origin_updated b start S cm).set
          (final_landing b start steps)
          (.stack (merge_result b start steps S cm))) ∧
      WellFormedIdx r.board := by
  rcases apply_move_spec b cm steps start S hwf.1 hidx hstart hsteps hS with
    ⟨hElt, ⟨o, herr | herr⟩, _⟩ | hosp
  · exfalso
    obtain ⟨hd, h2lt, hj2⟩ := herr
    have := hwf.2 (start + steps) hElt (is_jump_at_of_jump hd)
    rw [this] at hj2
    cases hj2
  · exfalso
    obtain ⟨hd, hne, hj2⟩ := herr
    have hE1 : start + steps - 1 + 1 = start + steps := by omega
    have := hwf.2 (start + steps - 1) (by omega) hj2
    rw [hE1, is_jump_at_of_jump hd] at this
    cases this
  · exact hosp

theorem origin_updated_length {b : Board} {start : Nat} {S : List Camel}
    {cm : Camel} (hlen : b.fields.length = BOARD_SIZE) :
    (origin_updated b start S cm).length = BOARD_SIZE := by
  unfold origin_updated
  rw [List.length_set]
  exact hlen

theorem origin_updated_get_start {b : Board} {start : Nat} {S : List Camel}
    {cm : Camel} (hlen : b.fields.length = BOARD_SIZE)
    (hstart : start < BOARD_SIZE) :
    (origin_updated b start S cm).get? start =
      some (if (split_sl S cm).isEmpty then .empty
        else .stack (split_sl S cm)) := by
  unfold origin_updated
  exact get?_set_self _ _ _ (by omega)

theorem origin_updated_stack_start {b : Board} {start : Nat} {S : List Camel}
    {cm : Camel} (hlen : b.fields.length = BOARD_SIZE)
    (hstart : start < BOARD_SIZE) :
    stack_at_list (origin_updated b start S cm) start = split_sl S cm := by
  by_cases hE : (split_sl S cm).isEmpty
  · have h1 : (origin_updated b start S cm).get? start = some .empty := by
      rw [origin_updated_get_start hlen hstart, if_pos hE]
    unfold stack_at_list
    rw [h1, List.isEmpty_iff.mp hE]
  · have h1 : (origin_updated b start S cm).get? start =
        some (.stack (split_sl S cm)) := by
      rw [origin_updated_get_start hlen hstart, if_neg hE]
    unfold stack_at_list
    rw [h1]

/-- If the final landing equals the origin, the landing tile was a
Backwards tile one past the origin. -/
theorem is_backward_of_final_eq_start {b : Board} {start steps : Nat}
    (hs1 : 1 ≤ steps)
    (heq : final_landing b start steps = start) :
    is_backward_at b (start + steps) = true := by
  unfold final_landing at heq
  by_cases hge : BOARD_SIZE ≤ start + steps
  · rw [if_pos hge] at heq
    omega
  · rw [if_neg hge] at heq
    cases hd : b.fields.get? (start + steps) with
    | none => simp only [hd] at heq; omega
    | some f =>
      cases f with
      | empty => simp only [hd] at heq; omega
      | stack T => simp only [hd] at heq; omega
      | jump j o =>
        cases j with
        | Forward => simp only [hd] at heq; omega
        | Backwards => exact is_backward_at_bwd hd

/-! ## Claim C1 -/

/-- Claim C1: when the moved group lands on a Backwards tile whose shift
redirects it onto an occupied field, the carried group is merged beneath
the occupants; on every other landing on an occupied field (direct or after
a Forward shift) it is appended on top. -/
theorem claim_C1 (b : Board) (cm : Camel) (steps start ep : Nat)
    (S T : List Camel) (o : Option String) (bk : Bool)
    (hwf : WellFormed b) (hidx : b.index cm = some start)
    (hstart : start < BOARD_SIZE) (hs1 : 1 ≤ steps) (hs3 : steps ≤ 3)
    (hS : b.fields.get? start = some (.stack S))
    (hlt : start + steps < BOARD_SIZE)
    (hcase :
      (b.fields.get? (start + steps) = some (.jump .Backwards o) ∧
        ep = start + steps - 1 ∧ bk = true) ∨
      ((∃ cs, b.fields.get? (start + steps) = some (.stack cs)) ∧
        ep = start + steps ∧ bk = false) ∨
      (b.fields.get? (start + steps) = some (.jump .Forward o) ∧
        ep = start + steps + 1 ∧ ep < BOARD_SIZE ∧ bk = false))
    (hT : (origin_updated b start S cm).get? ep = some (.stack T)) :
    ∃ r, apply_move b ⟨cm, steps⟩ = .ok r ∧ r.winners = none ∧
      r.board.fields.get? ep =
        some (.stack (if bk then split_ms S cm ++ T
          else T ++ split_ms S cm)) := by
  obtain ⟨r, hok, h1, h2, h3, h4, h5, h6, hwfr⟩ :=
    apply_move_ok_spec b cm steps start S hwf hidx hstart hs1 hS
  have hOUlen : (origin_updated b start S cm).length = BOARD_SIZE :=
    origin_updated_length (wfi_length hwf.1)
  have hge : ¬ BOARD_SIZE ≤ start + steps := by omega
  have hTT : stack_at_list (origin_updated b start S cm) ep = T :=
    stack_at_list_eq hT
  rcases hcase with ⟨hd, hep, hbk⟩ | ⟨⟨cs, hd⟩, hep, hbk⟩ | ⟨hd, hep, heplt, hbk⟩
  · have hFL : final_landing b start steps = ep := by
      rw [final_landing_bwd hge hd, hep]
    have hFLlt : final_landing b start steps < BOARD_SIZE := by
      rw [hFL, hep]
      omega
    have hMR : merge_result b start steps S cm = split_ms S cm ++ T := by
      unfold merge_result
      rw [is_backward_at_bwd hd, if_pos rfl, hFL, hTT]
    refine ⟨r, hok, ?_, ?_⟩
    · rw [h3, hFL, if_neg (by rw [hep]; omega)]
    · rw [h6 hFLlt, hFL, hMR, get?_set_self _ _ _ (by rw [hOUlen, hep]; omega),
        hbk]
      simp
  · have hFL : final_landing b start steps = ep := by
      rw [final_landing_stack hge hd, hep]
    have hFLlt : final_landing b start steps < BOARD_SIZE := by
      rw [hFL, hep]
      omega
    have hMR : merge_result b start steps S cm = T ++ split_ms S cm := by
      unfold merge_result
      rw [is_backward_at_stack hd, if_neg (by simp), hFL, hTT]
    refine ⟨r, hok, ?_, ?_⟩
    · rw [h3, hFL, if_neg (by rw [hep]; omega)]
    · rw [h6 hFLlt, hFL, hMR, get?_set_self _ _ _ (by rw [hOUlen, hep]; omega),
        hbk]
      simp
  · have hFL : final_landing b start steps = ep := by
      rw [final_landing_fwd hge hd, hep]
    have hFLlt : final_landing b start steps < BOARD_SIZE := by
      rw [hFL]
      omega
    have hMR : merge_result b start steps S cm = T ++ split_ms S cm := by
      unfold merge_result
      rw [is_backward_at_fwd hd, if_neg (by simp), hFL, hTT]
    refine ⟨r, hok, ?_, ?_⟩
    · rw [h3, hFL, if_neg (by omega)]
    · rw [h6 hFLlt, hFL, hMR, get?_set_self _ _ _ (by rw [hOUlen]; omega),
        hbk]
      simp

/-- The C1/C3/C4 witness board: a Backwards tile at position 2, Blue under
Yellow at position 1. -/
def c1w_board : Board :=
  ⟨((List.replicate BOARD_SIZE BoardField.empty).set 1
      (.stack [.Blue, .Yellow])).set 2 (.jump .Backwards (some "t")),
    fun c => match c with
      | .Blue => some 1
      | .Yellow => some 1
      | _ => none⟩

theorem claim_C1_witness :
    ∃ r, apply_move c1w_board ⟨.Yellow, 1⟩ = .ok r ∧ r.winners = none ∧
      r.board.fields.get? 1 = some (.stack [.Yellow, .Blue]) := by
  obtain ⟨r, hok, hw, hf⟩ :=
    claim_C1 c1w_board .Yellow 1 1 1 [.Blue, .Yellow] [.Blue] (some "t") true
      (by decide) rfl (by decide) (by decide) (by decide) rfl (by decide)
      (Or.inl ⟨rfl, rfl, rfl⟩) rfl
  refine ⟨r, hok, hw, ?_⟩
  rw [hf]
  rfl

/-! ## Claim C3 -/

/-- Claim C3: a subsequent move splits the moved camel's stack at the
camel's height; the camel and everything above it form the carried group
(order preserved), the camels below remain at the origin, which becomes
Empty when nothing remains (unless a Backwards shift returns the group to
its own origin field, where it goes beneath the remainder), and every
carried camel's recorded position advances by exactly `steps` plus the
tile shift when one applies. -/
theorem claim_C3 (b : Board) (cm : Camel) (steps start : Nat) (S : List Camel)
    (hwf : WellFormed b) (hidx : b.index cm = some start)
    (hstart : start < BOARD_SIZE) (hs1 : 1 ≤ steps) (hs3 : steps ≤ 3)
    (hS : b.fields.get? start = some (.stack S)) :
    ∃ r, apply_move b ⟨cm, steps⟩ = .ok r ∧
      (∃ above, split_ms S cm = cm :: above ∧
        split_sl S cm ++ split_ms S cm = S) ∧
      (∀ x ∈ split_ms S cm, r.board.index x = some (final_landing b start steps)) ∧
      (∀ x, x ∉ split_ms S cm → r.board.index x = b.index x) ∧
      ((∀ j o, ¬ b.fields.get? (start + steps) = some (.jump j o)) →
        final_landing b start steps = start + steps) ∧
      (∀ o, b.fields.get? (start + steps) = some (.jump .Forward o) →
        final_landing b start steps = start + steps + 1) ∧
      (∀ o, b.fields.get? (start + steps) = some (.jump .Backwards o) →
        final_landing b start steps = start + steps - 1) ∧
      (final_landing b start steps ≠ start →
        r.board.fields.get? start = some (if (split_sl S cm).isEmpty
          then .empty else .stack (split_sl S cm))) ∧
      (final_landing b start steps = start →
        r.board.fields.get? start =
          some (.stack (split_ms S cm ++ split_sl S cm))) ∧
      (final_landing b start steps < BOARD_SIZE →
        ∃ rest, r.board.fields.get? (final_landing b start steps) =
            some (.stack (split_ms S cm ++ rest)) ∨
          r.board.fields.get? (final_landing b start steps) =
            some (.stack (rest ++ split_ms S cm))) := by
  obtain ⟨r, hok, h1, h2, h3, h4, h5, h6, hwfr⟩ :=
    apply_move_ok_spec b cm steps start S hwf hidx hstart hs1 hS
  have hlen : b.fields.length = BOARD_SIZE := wfi_length hwf.1
  have hOUlen : (origin_updated b start S cm).length = BOARD_SIZE :=
    origin_updated_length hlen
  have hmem : cm ∈ S := wf_mem_origin hwf.1 hidx hstart hS
  refine ⟨r, hok, ?_, h1, h2, ?_, ?_, ?_, ?_, ?_, ?_⟩
  · obtain ⟨above, habove⟩ := split_ms_head hmem
    exact ⟨above, habove, List.take_append_drop _ S⟩
  · intro hnj
    unfold final_landing
    by_cases hge : BOARD_SIZE ≤ start + steps
    · rw [if_pos hge]
    · rw [if_neg hge]
      cases hd : b.fields.get? (start + steps) with
      | none => rfl
      | some f =>
        cases f with
        | empty => rfl
        | stack T => rfl
        | jump j o => exact absurd hd (hnj j o)
  · intro o hd
    have hge : ¬ BOARD_SIZE ≤ start + steps := by
      intro hge
      rw [List.get?_eq_none.mpr (by omega)] at hd
      cases hd
    exact final_landing_fwd hge hd
  · intro o hd
    have hge : ¬ BOARD_SIZE ≤ start + steps := by
      intro hge
      rw [List.get?_eq_none.mpr (by omega)] at hd
      cases hd
    exact final_landing_bwd hge hd
  · intro hne
    by_cases hge : BOARD_SIZE ≤ final_landing b start steps
    · rw [h5 hge]
      exact origin_updated_get_start hlen hstart
    · rw [h6 (by omega), get?_set_other _ _ hne]
      exact origin_updated_get_start hlen hstart
  · intro heq
    have hFLlt : final_landing b start steps < BOARD_SIZE := by
      rw [heq]
      omega
    have hMR : merge_result b start steps S cm =
        split_ms S cm ++ split_sl S cm := by
      unfold merge_result
      rw [is_backward_of_final_eq_start hs1 heq, if_pos rfl, heq,
        origin_updated_stack_start hlen hstart]
    rw [h6 hFLlt, heq, get?_set_self _ _ _ (by rw [hOUlen]; omega), hMR]
  · intro hFLlt
    rw [h6 hFLlt, get?_set_self _ _ _ (by rw [hOUlen]; omega)]
    unfold merge_result
    by_cases hbk : is_backward_at b (start + steps) = true
    · rw [if_pos hbk]
      exact ⟨_, Or.inl rfl⟩
    · rw [if_neg hbk]
      exact ⟨_, Or.inr rfl⟩

theorem claim_C3_witness :
    ∃ r, apply_move c1w_board ⟨.Yellow, 1⟩ = .ok r ∧
      r.board.index .Yellow = some 1 ∧
      r.board.index .Blue = some 1 := by
  obtain ⟨r, hok, hsplit, hidxm, hidxo, _, _, hbwd, _, horigin, _⟩ :=
    claim_C3 c1w_board .Yellow 1 1 [.Blue, .Yellow]
      (by decide) rfl (by decide) (by decide) (by decide) rfl
  have hFL : final_landing c1w_board 1 1 = 1 := hbwd (some "t") rfl
  refine ⟨r, hok, ?_, ?_⟩
  · have := hidxm .Yellow (by decide)
    rw [hFL] at this
    exact this
  · have := hidxo .Blue (by decide)
    rw [this]
    rfl

/-! ## Claim C4 -/

/-- Claim C4: a subsequent move produces a non-empty finish group exactly
when the final landing position (origin + steps, shifted by the tile when
one is hit) is at least 16; the finish group is the carried group in its
bottom-to-top order, its camels are recorded at positions of at least 16
and occur in no stack of the returned board; the tile reward is absent when
the group crosses the line before any tile and still reported when it
crosses only through the tile's shift. -/
theorem claim_C4 (b : Board) (cm : Camel) (steps start : Nat) (S : List Camel)
    (hwf : WellFormed b) (hidx : b.index cm = some start)
    (hstart : start < BOARD_SIZE) (hs1 : 1 ≤ steps) (hs3 : steps ≤ 3)
    (hS : b.fields.get? start = some (.stack S)) :
    ∃ r, apply_move b ⟨cm, steps⟩ = .ok r ∧
      ((r.winners ≠ none) ↔ BOARD_SIZE ≤ final_landing b start steps) ∧
      (BOARD_SIZE ≤ final_landing b start steps →
        r.winners = some (split_ms S cm) ∧
        split_ms S cm ≠ [] ∧
        (∀ x ∈ split_ms S cm, ∃ v, r.board.index x = some v ∧ BOARD_SIZE ≤ v) ∧
        (∀ p cs, r.board.fields.get? p = some (.stack cs) →
          ∀ x ∈ split_ms S cm, x ∉ cs) ∧
        (BOARD_SIZE ≤ start + steps → r.owner = none) ∧
        (start + steps < BOARD_SIZE →
          ∃ j o, b.fields.get? (start + steps) = some (.jump j o) ∧
            r.owner = o)) := by
  obtain ⟨r, hok, h1, h2, h3, h4, h5, h6, hwfr⟩ :=
    apply_move_ok_spec b cm steps start S hwf hidx hstart hs1 hS
  have hlen : b.fields.length = BOARD_SIZE := wfi_length hwf.1
  have hmem : cm ∈ S := wf_mem_origin hwf.1 hidx hstart hS
  have hnd : S.Nodup := wf_stack_nodup hwf.1 hstart hS
  have hndapp : (split_sl S cm ++ split_ms S cm).Nodup := by
    unfold split_sl split_ms
    rw [List.take_append_drop]
    exact hnd
  have hdisj : ∀ x ∈ split_sl S cm, x ∉ split_ms S cm :=
    fun x hx hx2 => List.disjoint_of_nodup_append hndapp hx hx2
  have hMSsub : ∀ x ∈ split_ms S cm, x ∈ S :=
    fun x hx => (List.drop_sublist _ _).subset hx
  have hMSidx : ∀ x ∈ split_ms S cm, b.index x = some start :=
    fun x hx => wf_stack_member_index hwf.1 hstart hS (hMSsub x hx)
  refine ⟨r, hok, ?_, ?_⟩
  · rw [h3]
    by_cases hge : BOARD_SIZE ≤ final_landing b start steps
    · rw [if_pos hge]
      exact ⟨fun _ => hge, fun _ => by simp⟩
    · rw [if_neg hge]
      exact ⟨fun hne => absurd rfl hne, fun hcon => absurd hcon hge⟩
  · intro hge
    refine ⟨by rw [h3, if_pos hge], ?_, ?_, ?_, ?_, ?_⟩
    · obtain ⟨above, habove⟩ := split_ms_head hmem
      rw [habove]
      simp
    · intro x hx
      exact ⟨final_landing b start steps, h1 x hx, hge⟩
    · intro p cs hget x hx
      rw [h5 hge] at hget
      by_cases hps : p = start
      · rw [hps, origin_updated_get_start hlen hstart] at hget
        by_cases hE : (split_sl S cm).isEmpty
        · rw [if_pos hE] at hget
          exact BoardField.noConfusion (Option.some.inj hget)
        · rw [if_neg hE] at hget
          have hcs : split_sl S cm = cs :=
            BoardField.stack.inj (Option.some.inj hget)
          intro hin
          rw [← hcs] at hin
          exact hdisj x hin hx
      · have hbp : b.fields.get? p = some (.stack cs) := by
          rw [← hget]
          unfold origin_updated
          exact (get?_set_other _ _ (fun h => hps h.symm)).symm
        have hplt : p < BOARD_SIZE := by
          by_contra hcon
          rw [List.get?_eq_none.mpr (by omega)] at hbp
          cases hbp
        intro hin
        have := wf_not_mem_other hwf.1 (hMSidx x hx) hstart hplt hps
        rw [stack_list_at_eq hbp] at this
        exact this hin
    · intro hEge
      rw [h4, jump_reward_finish hEge]
    · intro hElt
      have hgeE : ¬ BOARD_SIZE ≤ start + steps := by omega
      cases hd : b.fields.get? (start + steps) with
      | none =>
        exfalso
        rw [List.get?_eq_none] at hd
        omega
      | some f =>
        cases f with
        | empty =>
          exfalso
          rw [final_landing_empty hgeE hd] at hge
          omega
        | stack T =>
          exfalso
          rw [final_landing_stack hgeE hd] at hge
          omega
        | jump j o =>
          exact ⟨j, o, rfl, by rw [h4, jump_reward_jump hgeE hd]⟩

def c4w_board : Board :=
  ⟨(List.replicate BOARD_SIZE BoardField.empty).set 14
      (.stack [.Blue, .Yellow]),
    fun c => match c with
      | .Blue => some 14
      | .Yellow => some 14
      | _ => none⟩

theorem claim_C4_witness :
    ∃ r, apply_move c4w_board ⟨.Yellow, 3⟩ = .ok r ∧
      r.winners = some [.Yellow] ∧ r.owner = none := by
  obtain ⟨r, hok, hiff, hfin⟩ :=
    claim_C4 c4w_board .Yellow 3 14 [.Blue, .Yellow]
      (by decide) rfl (by decide) (by decide) (by decide) rfl
  have hge : BOARD_SIZE ≤ final_landing c4w_board 14 3 := by decide
  obtain ⟨hw, _, _, _, hown, _⟩ := hfin hge
  refine ⟨r, hok, ?_, hown (by decide)⟩
  rw [hw]
  rfl

/-! ## Claim C2 -/

/-- The ghost board of the C2 counterexample: a stack containing Yellow
sits at position 5 while the position index is empty.  The claim's own
well-formedness condition (which only constrains indexed camels) holds
vacuously. -/
def ghost_board : Board :=
  ⟨(List.replicate BOARD_SIZE BoardField.empty).set 5 (.stack [.Yellow]),
    fun _ => none⟩

/-- Claim C2 as stated is false: on `ghost_board` (well-formed in the
claim's sense) the first move of Yellow with steps 1 succeeds, after which
Yellow is recorded at position 0 but occurs in two distinct stacks. -/
theorem claim_C2_counterexample :
    IndexedCamelsPlaced ghost_board ∧
    (∃ r, apply_move ghost_board ⟨.Yellow, 1⟩ = .ok r ∧
      r.board.index .Yellow = some 0 ∧ (0 : Nat) < BOARD_SIZE ∧
      Camel.Yellow ∈ stack_list_at r.board 0 ∧
      Camel.Yellow ∈ stack_list_at r.board 5 ∧ (0 : Nat) ≠ 5) := by
  refine ⟨by decide, ⟨_, rfl, ?_, ?_, ?_, ?_, ?_⟩⟩ <;> decide

/-- Claim C2 amended: with the full index-side well-formedness (the claim's
condition strengthened by the converse direction, that every camel found in
a stack is recorded in the index at that stack's position, with exact
multiplicity one), every move with steps in {1,2,3} that does not fail
returns a board with the same property. -/
theorem claim_C2_amended (b : Board) (mv : Move) (r : MoveResult)
    (hwf : WellFormedIdx b)
    (hs1 : 1 ≤ mv.steps) (hs3 : mv.steps ≤ 3)
    (hok : apply_move b mv = .ok r) :
    WellFormedIdx r.board := by
  have hmv : mv = ⟨mv.camel, mv.steps⟩ := rfl
  cases hidx : b.index mv.camel with
  | none =>
    have hposlt : mv.steps - 1 < BOARD_SIZE := by
      have hB : BOARD_SIZE = 16 := rfl
      omega
    cases hf : b.fields.get? (mv.steps - 1) with
    | none =>
      exfalso
      rw [List.get?_eq_none] at hf
      have := wfi_length hwf
      omega
    | some f =>
      cases hjf : f with
      | jump j o =>
        exfalso
        have herr := (apply_move_first_spec b mv.camel mv.steps hwf hidx hs1 hs3).1
          j o (by rw [hf, hjf])
        rw [← hmv] at herr
        rw [herr] at hok
        cases hok
      | empty =>
        obtain ⟨r2, hok2, _, _, _, _, _, hwfr⟩ :=
          (apply_move_first_spec b mv.camel mv.steps hwf hidx hs1 hs3).2
            .empty (by rw [hf, hjf]) (by intro j o h; cases h)
        rw [← hmv] at hok2
        rw [hok2] at hok
        rw [← Except.ok.inj hok]
        exact hwfr
      | stack cs =>
        obtain ⟨r2, hok2, _, _, _, _, _, hwfr⟩ :=
          (apply_move_first_spec b mv.camel mv.steps hwf hidx hs1 hs3).2
            (.stack cs) (by rw [hf, hjf]) (by intro j o h; cases h)
        rw [← hmv] at hok2
        rw [hok2] at hok
        rw [← Except.ok.inj hok]
        exact hwfr
  | some start =>
    by_cases hstart : start < BOARD_SIZE
    · cases hf : b.fields.get? start with
      | none =>
        exfalso
        have hcore : apply_move_core b mv = .error .offTrack := by
          unfold apply_move_core
          rw [hidx]
          dsimp only
          rw [hf]
        rw [apply_move_err_of_core hcore] at hok
        cases hok
      | some f =>
        cases hjf : f with
        | empty =>
          exfalso
          have hcore : apply_move_core b mv = .error .notInStack := by
            unfold apply_move_core
            rw [hidx]
            dsimp only
            rw [hf, hjf]
          rw [apply_move_err_of_core hcore] at hok
          cases hok
        | jump j o =>
          exfalso
          have hcore : apply_move_core b mv = .error .notInStack := by
            unfold apply_move_core
            rw [hidx]
            dsimp only
            rw [hf, hjf]
          rw [apply_move_err_of_core hcore] at hok
          cases hok
        | stack S =>
          have hS : b.fields.get? start = some (.stack S) := by rw [hf, hjf]
          rcases apply_move_spec b mv.camel mv.steps start S hwf hidx hstart hs1 hS
            with ⟨_, _, herr⟩ | ⟨r2, hok2, _, _, _, _, _, _, hwfr⟩
          · exfalso
            rw [← hmv] at herr
            rw [herr] at hok
            cases hok
          · rw [← hmv] at hok2
            rw [hok2] at hok
            rw [← Except.ok.inj hok]
            exact hwfr
    · exfalso
      have hf : b.fields.get? start = none := by
        rw [List.get?_eq_none]
        have := wfi_length hwf
        omega
      have hcore : apply_move_core b mv = .error .offTrack := by
        unfold apply_move_core
        rw [hidx]
        dsimp only
        rw [hf]
      rw [apply_move_err_of_core hcore] at hok
      cases hok

/-- A minimal strongly well-formed board for the C2 witness. -/
def c2w_board : Board :=
  ⟨(List.replicate BOARD_SIZE BoardField.empty).set 0 (.stack [.Yellow]),
    fun c => if c = .Yellow then some 0 else none⟩

theorem claim_C2_amended_witness :
    WellFormedIdx c2w_board ∧
    ∃ r, apply_move c2w_board ⟨.Yellow, 1⟩ = .ok r ∧ WellFormedIdx r.board :=
  ⟨by decide,
    ⟨_, rfl, claim_C2_amended c2w_board ⟨.Yellow, 1⟩ _ (by decide) (by decide)
      (by decide) rfl⟩⟩

/-! ## Claim C9 -/

/-- Claim C9 as stated is false: `finished_board` is fully well-formed, but
moving the finished camel Yellow (present in the index at position 16) is
neither a first move nor an `InvalidPlacement`, and it fails with an
off-track error (the Python IndexError on `fields[16]`). -/
theorem claim_C9_counterexample :
    WellFormed finished_board ∧
    finished_board.index .Yellow = some 16 ∧
    apply_move finished_board ⟨.Yellow, 1⟩ = .error .offTrack ∧
    MoveError.offTrack ≠ MoveError.jumpAtStart := by
  exact ⟨by decide, rfl, rfl, by decide⟩

/-- Claim C9 amended: on a well-formed board a first move (steps in
{1,2,3}) places the camel at `steps - 1`, appending it on top of any stack
there, and fails exactly when that field holds a tile (the
`InvalidPlacement`/`jumpAtStart` error); every subsequent move of a camel
whose recorded position is below 16 succeeds. -/
theorem claim_C9_amended (b : Board) (hwf : WellFormed b) :
    (∀ cm steps, b.index cm = none → 1 ≤ steps → steps ≤ 3 →
      (((∃ e, apply_move b ⟨cm, steps⟩ = .error e) ↔
        (∃ j o, b.fields.get? (steps - 1) = some (.jump j o))) ∧
       (∀ j o, b.fields.get? (steps - 1) = some (.jump j o) →
         apply_move b ⟨cm, steps⟩ = .error .jumpAtStart) ∧
       (∀ f, b.fields.get? (steps - 1) = some f → (∀ j o, f ≠ .jump j o) →
         ∃ r, apply_move b ⟨cm, steps⟩ = .ok r ∧
           r.board.index cm = some (steps - 1) ∧
           r.board.fields = b.fields.set (steps - 1)
             (.stack (stack_at_list b.fields (steps - 1) ++ [cm]))))) ∧
    (∀ cm steps start, b.index cm = some start → start < BOARD_SIZE →
      1 ≤ steps → steps ≤ 3 →
      ∃ r, apply_move b ⟨cm, steps⟩ = .ok r) := by
  constructor
  · intro cm steps hnone hs1 hs3
    have hfirst := apply_move_first_spec b cm steps hwf.1 hnone hs1 hs3
    have hposlt : steps - 1 < BOARD_SIZE := by
      have hB : BOARD_SIZE = 16 := rfl
      omega
    have hsome : ∃ f, b.fields.get? (steps - 1) = some f := by
      cases hf : b.fields.get? (steps - 1) with
      | none =>
        exfalso
        rw [List.get?_eq_none] at hf
        have := wfi_length hwf.1
        omega
      | some f => exact ⟨f, rfl⟩
    obtain ⟨f, hf⟩ := hsome
    refine ⟨?_, hfirst.1, fun f2 hf2 hnj => ?_⟩
    · constructor
      · intro ⟨e, he⟩
        by_cases hj : ∃ j o, f = .jump j o
        · obtain ⟨j, o, hjf⟩ := hj
          exact ⟨j, o, by rw [hf, hjf]⟩
        · exfalso
          obtain ⟨r, hok, _⟩ := hfirst.2 f hf
            (fun j o hjo => hj ⟨j, o, hjo⟩)
          rw [hok] at he
          cases he
      · intro ⟨j, o, hjo⟩
        exact ⟨.jumpAtStart, hfirst.1 j o hjo⟩
    · obtain ⟨r, hok, h1, _, h3, _⟩ := hfirst.2 f2 hf2 hnj
      exact ⟨r, hok, h1, h3⟩
  · intro cm steps start hidx hstart hs1 hs3
    obtain ⟨S, hS⟩ := wf_stack_exists hwf.1 hidx hstart
    obtain ⟨r, hok, _⟩ := apply_move_ok_spec b cm steps start S hwf hidx hstart hs1 hS
    exact ⟨r, hok⟩

/-- The board for the C9 witness: Yellow on track at 0, a Forward tile at
position 2, Green not yet placed. -/
def c9w_board : Board :=
  ⟨((List.replicate BOARD_SIZE BoardField.empty).set 0
      (.stack [.Yellow])).set 2 (.jump .Forward (some "a")),
    fun c => if c = .Yellow then some 0 else none⟩

theorem claim_C9_amended_witness :
    apply_move c9w_board ⟨.Green, 3⟩ = .error .jumpAtStart ∧
    (∃ r, apply_move c9w_board ⟨.Green, 1⟩ = .ok r ∧
      r.board.index .Green = some 0 ∧
      r.board.fields = c9w_board.fields.set 0
        (.stack (stack_at_list c9w_board.fields 0 ++ [.Green]))) ∧
    (∃ r, apply_move c9w_board ⟨.Yellow, 1⟩ = .ok r) := by
  have h := claim_C9_amended c9w_board (by decide)
  refine ⟨(h.1 .Green 3 rfl (by decide) (by decide)).2.1 .Forward (some "a") rfl,
    (h.1 .Green 1 rfl (by decide) (by decide)).2.2 (.stack [.Yellow]) rfl
      (by intro j o hcon; cases hcon),
    h.2 .Yellow 1 0 rfl (by decide) (by decide) (by decide)⟩

/-! ## Claim C5 -/

/-- Membership in the entry list certifies the index lookup. -/
theorem index_entries_sound {b : Board} {c : Camel} {p : Nat}
    (h : (c, p) ∈ index_entries b) : b.index c = some p := by
  unfold index_entries at h
  obtain ⟨a, _, ha⟩ := List.mem_filterMap.mp h
  cases hia : b.index a with
  | none => rw [hia] at ha; exact nomatch ha
  | some q =>
    rw [hia] at ha
    simp only [Option.map_some'] at ha
    have h3 := Option.some.inj ha
    have h1 : a = c := congrArg Prod.fst h3
    have h2 : q = p := congrArg Prod.snd h3
    rw [← h1, hia, h2]

/-- A successful `camel_key` records the camel's indexed position as the
primary component of the key. -/
theorem camel_key_fst {b : Board} {winners : Option (List Camel)} {c : Camel}
    {p : Nat} {k : Nat × Nat} (h : camel_key b winners c p = .ok k) :
    k.1 = p := by
  unfold camel_key at h
  by_cases hp : p < BOARD_SIZE
  · rw [if_pos hp] at h
    cases hf : b.fields.get? p with
    | none => rw [hf] at h; exact nomatch h
    | some f =>
      cases f with
      | empty => rw [hf] at h; exact nomatch h
      | jump j o => rw [hf] at h; exact nomatch h
      | stack cs =>
        rw [hf] at h
        dsimp only at h
        by_cases hm : c ∈ cs
        · rw [if_pos hm] at h
          rw [← Except.ok.inj h]
        · rw [if_neg hm] at h
          exact nomatch h
  · rw [if_neg hp] at h
    cases hw : winners with
    | none => rw [hw] at h; exact nomatch h
    | some ws =>
      rw [hw] at h
      dsimp only at h
      by_cases hm : c ∈ ws
      · rw [if_pos hm] at h
        rw [← Except.ok.inj h]
      · rw [if_neg hm] at h
        exact nomatch h

/-- On a board with well-formed index the key of an indexed camel evaluates
successfully provided the finish order covers the camel when it is past the
finish line. -/
theorem camel_key_ok_of {b : Board} {winners : Option (List Camel)}
    (hwf : WellFormedIdx b) {c : Camel} {p : Nat} (hc : b.index c = some p)
    (hfin : BOARD_SIZE ≤ p → ∃ ws, winners = some ws ∧ c ∈ ws) :
    ∃ i, camel_key b winners c p = .ok (p, i) := by
  unfold camel_key
  by_cases hp : p < BOARD_SIZE
  · obtain ⟨S, hS⟩ := wf_stack_exists hwf hc hp
    have hm : c ∈ S := wf_mem_origin hwf hc hp hS
    refine ⟨S.indexOf c, ?_⟩
    rw [if_pos hp, hS]
    dsimp only
    rw [if_pos hm]
  · obtain ⟨ws, hws, hm⟩ := hfin (by omega)
    refine ⟨ws.indexOf c, ?_⟩
    rw [if_neg hp, hws]
    dsimp only
    rw [if_pos hm]

/-- Unpack one successful entry of the `unsorted_camels` comprehension. -/
theorem entry_of_map_ok {b : Board} {winners : Option (List Camel)}
    {cp : Camel × Nat} {e : Camel × Nat × Nat}
    (h : ((camel_key b winners cp.1 cp.2).map fun k => (cp.1, k)) = .ok e) :
    e.1 = cp.1 ∧ camel_key b winners cp.1 cp.2 = .ok e.2 := by
  cases hk : camel_key b winners cp.1 cp.2 with
  | error er => rw [hk] at h; exact nomatch h
  | ok k =>
    rw [hk] at h
    have h3 : (Except.ok (cp.1, k) : Except RankError (Camel × Nat × Nat)) = .ok e := h
    have h4 := Except.ok.inj h3
    subst h4
    exact ⟨rfl, rfl⟩

/-- When every element maps successfully, `mapExcept` succeeds and its
output is related pointwise to the input. -/
theorem mapExcept_ok_of_all {α β ε : Type} {f : α → Except ε β} :
    ∀ {l : List α}, (∀ x ∈ l, ∃ y, f x = .ok y) →
      ∃ ys, mapExcept f l = .ok ys ∧ List.Forall₂ (fun x y => f x = .ok y) l ys
  | [], _ => ⟨[], rfl, List.Forall₂.nil⟩
  | a :: as, hall => by
    obtain ⟨y, hy⟩ := hall a (List.mem_cons_self a as)
    obtain ⟨ys, hys, hfa⟩ :=
      mapExcept_ok_of_all (fun x hx => hall x (List.mem_cons_of_mem a hx))
    refine ⟨y :: ys, ?_, List.Forall₂.cons hy hfa⟩
    unfold mapExcept
    rw [hy]
    dsimp only
    simp only [hys]

/-- Pointwise facts about the keyed entries: each output entry carries its
camel in the first component and a successfully evaluated key. -/
theorem keyed_forall2_facts {b : Board} {winners : Option (List Camel)}
    {l : List (Camel × Nat)} {ys : List (Camel × Nat × Nat)}
    (h : List.Forall₂ (fun cp e =>
      ((camel_key b winners cp.1 cp.2).map fun k => (cp.1, k)) = .ok e) l ys) :
    ys.map Prod.fst = l.map Prod.fst ∧
    ∀ e ∈ ys, ∃ cp ∈ l, e.1 = cp.1 ∧ camel_key b winners cp.1 cp.2 = .ok e.2 := by
  induction h with
  | nil => exact ⟨rfl, fun e he => absurd he (List.not_mem_nil e)⟩
  | cons h1 hrest ih =>
    obtain ⟨he1, hk⟩ := entry_of_map_ok h1
    constructor
    · rw [List.map_cons, List.map_cons, ih.1, he1]
    · intro e he
      rcases List.mem_cons.mp he with heq | hmem
      · subst heq
        exact ⟨_, List.mem_cons_self _ _, he1, hk⟩
      · obtain ⟨cp, hcp, h3, h4⟩ := ih.2 e hmem
        exact ⟨cp, List.mem_cons_of_mem _ hcp, h3, h4⟩

/-- The entry list of a total index covers the camels in declaration
order. -/
theorem filterMap_index_fst (b : Board) :
    ∀ l : List Camel, (∀ c ∈ l, ∃ p, b.index c = some p) →
      (l.filterMap fun c => (b.index c).map fun p => (c, p)).map Prod.fst = l := by
  intro l
  induction l with
  | nil => intro _; rfl
  | cons a as ih =>
    intro hall
    obtain ⟨p, hp⟩ := hall a (List.mem_cons_self a as)
    simp only [List.filterMap_cons, hp, Option.map_some']
    rw [List.map_cons, ih (fun c hc => hall c (List.mem_cons_of_mem a hc))]

/-- With a total index, the entries list every camel in declaration
order. -/
theorem index_entries_fst {b : Board} (hall : ∀ c : Camel, ∃ p, b.index c = some p) :
    (index_entries b).map Prod.fst = Camel.all :=
  filterMap_index_fst b Camel.all (fun c _ => hall c)

/-- Distinct camels never share a successful sort key. -/
theorem camel_key_inj {b : Board} {winners : Option (List Camel)}
    (hwf : WellFormedIdx b) {c1 c2 : Camel} {p1 p2 : Nat} {k : Nat × Nat}
    (h1 : b.index c1 = some p1) (h2 : b.index c2 = some p2)
    (hk1 : camel_key b winners c1 p1 = .ok k)
    (hk2 : camel_key b winners c2 p2 = .ok k) : c1 = c2 := by
  have hpp : p1 = p2 := by
    have e1 := camel_key_fst hk1
    have e2 := camel_key_fst hk2
    omega
  subst hpp
  unfold camel_key at hk1 hk2
  by_cases hp : p1 < BOARD_SIZE
  · rw [if_pos hp] at hk1 hk2
    cases hf : b.fields.get? p1 with
    | none => rw [hf] at hk1; exact nomatch hk1
    | some f =>
      cases f with
      | empty => rw [hf] at hk1; exact nomatch hk1
      | jump j o => rw [hf] at hk1; exact nomatch hk1
      | stack cs =>
        rw [hf] at hk1 hk2
        dsimp only at hk1 hk2
        by_cases hm1 : c1 ∈ cs
        · by_cases hm2 : c2 ∈ cs
          · rw [if_pos hm1] at hk1
            rw [if_pos hm2] at hk2
            have e1 := Except.ok.inj hk1
            have e2 := Except.ok.inj hk2
            have hind : cs.indexOf c1 = cs.indexOf c2 :=
              congrArg Prod.snd (e1.trans e2.symm)
            exact (List.indexOf_inj hm1 hm2).mp hind
          · rw [if_neg hm2] at hk2; exact nomatch hk2
        · rw [if_neg hm1] at hk1; exact nomatch hk1
  · rw [if_neg hp] at hk1 hk2
    cases hw : winners with
    | none => rw [hw] at hk1; exact nomatch hk1
    | some ws =>
      rw [hw] at hk1 hk2
      dsimp only at hk1 hk2
      by_cases hm1 : c1 ∈ ws
      · by_cases hm2 : c2 ∈ ws
        · rw [if_pos hm1] at hk1
          rw [if_pos hm2] at hk2
          have e1 := Except.ok.inj hk1
          have e2 := Except.ok.inj hk2
          have hind : ws.indexOf c1 = ws.indexOf c2 :=
            congrArg Prod.snd (e1.trans e2.symm)
          exact (List.indexOf_inj hm1 hm2).mp hind
        · rw [if_neg hm2] at hk2; exact nomatch hk2
      · rw [if_neg hm1] at hk1; exact nomatch hk1

/-- `get_rankings` succeeds on a well-formed fully indexed board and yields
a sorted permutation of the camels, exposing the underlying keyed
entries. -/
theorem get_rankings_spec {b : Board} {winners : Option (List Camel)}
    (hwf : WellFormedIdx b)
    (hall : ∀ c : Camel, ∃ p, b.index c = some p)
    (hfin : ∀ c p, b.index c = some p → BOARD_SIZE ≤ p →
      ∃ ws, winners = some ws ∧ c ∈ ws) :
    ∃ es : List (Camel × Nat × Nat),
      get_rankings b winners = .ok (es.map Prod.fst) ∧
      (es.map Prod.fst).Perm Camel.all ∧
      List.Pairwise entry_ge es ∧
      ∀ e ∈ es, b.index e.1 = some e.2.1 ∧
        camel_key b winners e.1 e.2.1 = .ok e.2 := by
  have hsucc : ∀ cp ∈ index_entries b, ∃ e,
      ((camel_key b winners cp.1 cp.2).map fun k => (cp.1, k)) = .ok e := by
    intro cp hcp
    have hidx : b.index cp.1 = some cp.2 := index_entries_sound hcp
    obtain ⟨i, hk⟩ := camel_key_ok_of hwf hidx (hfin cp.1 cp.2 hidx)
    refine ⟨(cp.1, cp.2, i), ?_⟩
    rw [hk]
    rfl
  obtain ⟨es0, hes0, hfa⟩ := mapExcept_ok_of_all hsucc
  obtain ⟨hfst, hmem⟩ := keyed_forall2_facts hfa
  have hfstall : es0.map Prod.fst = Camel.all :=
    hfst.trans (index_entries_fst hall)
  refine ⟨es0.insertionSort entry_ge, ?_, ?_, ?_, ?_⟩
  · unfold get_rankings keyed_entries
    rw [hes0]
  · have hperm : (es0.insertionSort entry_ge).Perm es0 := List.perm_insertionSort _ _
    have h2 := hperm.map Prod.fst
    rw [hfstall] at h2
    exact h2
  · exact List.sorted_insertionSort entry_ge es0
  · intro e he
    have he0 : e ∈ es0 := (List.perm_insertionSort entry_ge es0).mem_iff.mp he
    obtain ⟨cp, hcp, he1, hk⟩ := hmem e he0
    have hidx : b.index cp.1 = some cp.2 := index_entries_sound hcp
    have hfst2 : e.2.1 = cp.2 := camel_key_fst hk
    refine ⟨?_, ?_⟩
    · rw [he1, hidx, hfst2]
    · rw [he1, hfst2]
      exact hk

/-- Claim C5 counterexample: the empty board is well-formed, yet
`get_rankings` returns the empty ranking, which does not contain all five
camels. -/
theorem claim_C5_counterexample :
    WellFormed create_empty_board ∧
    get_rankings create_empty_board none = .ok [] ∧
    Camel.Yellow ∉ ([] : List Camel) :=
  ⟨by decide, rfl, by decide⟩

/-- C5 (amended): on a board whose index is well-formed, in which every
camel is indexed, and whose finished camels all appear in the supplied
finish-order list, `get_rankings` returns all five camels best-first,
strictly sorted by the descending key (recorded position, then stack height
on track or finish-order index when finished); every finished camel
outranks every on-track camel and no two camels compare equal under the
key. -/
theorem claim_C5_amended (b : Board) (winners : Option (List Camel))
    (hwf : WellFormedIdx b)
    (hall : ∀ c : Camel, ∃ p, b.index c = some p)
    (hfin : ∀ c p, b.index c = some p → BOARD_SIZE ≤ p →
      ∃ ws, winners = some ws ∧ c ∈ ws) :
    ∃ l, get_rankings b winners = .ok l ∧
      l.Perm Camel.all ∧
      List.Pairwise (fun x y => ∃ kx ky, keyOf b winners x = some kx ∧
        keyOf b winners y = some ky ∧
        (ky.1 < kx.1 ∨ (ky.1 = kx.1 ∧ ky.2 < kx.2))) l ∧
      (∀ cf co pf po, b.index cf = some pf → BOARD_SIZE ≤ pf →
        b.index co = some po → po < BOARD_SIZE →
        l.indexOf cf < l.indexOf co) ∧
      (∀ c1 c2 k, keyOf b winners c1 = some k →
        keyOf b winners c2 = some k → c1 = c2) := by
  obtain ⟨es, hok, hperm, hsorted, hfacts⟩ := get_rankings_spec hwf hall hfin
  have hkeyOf : ∀ e ∈ es, keyOf b winners e.1 = some e.2 := by
    intro e he
    obtain ⟨hidx, hk⟩ := hfacts e he
    unfold keyOf
    rw [hidx]
    dsimp only
    rw [hk]
    rfl
  have hinj : ∀ c1 c2 k, keyOf b winners c1 = some k →
      keyOf b winners c2 = some k → c1 = c2 := by
    intro c1 c2 k hk1 hk2
    unfold keyOf at hk1 hk2
    cases hi1 : b.index c1 with
    | none => rw [hi1] at hk1; exact nomatch hk1
    | some p1 =>
      rw [hi1] at hk1
      dsimp only at hk1
      cases hi2 : b.index c2 with
      | none => rw [hi2] at hk2; exact nomatch hk2
      | some p2 =>
        rw [hi2] at hk2
        dsimp only at hk2
        cases hck1 : camel_key b winners c1 p1 with
        | error e => rw [hck1] at hk1; exact nomatch hk1
        | ok k1 =>
          rw [hck1] at hk1
          cases hck2 : camel_key b winners c2 p2 with
          | error e => rw [hck2] at hk2; exact nomatch hk2
          | ok k2 =>
            rw [hck2] at hk2
            have hk1s : (some k1 : Option (Nat × Nat)) = some k := hk1
            have hk2s : (some k2 : Option (Nat × Nat)) = some k := hk2
            have e1 : k1 = k := Option.some.inj hk1s
            have e2 : k2 = k := Option.some.inj hk2s
            subst e1
            exact camel_key_inj hwf hi1 hi2 hck1 (by rw [hck2, e2])
  have hnd : (es.map Prod.fst).Nodup := hperm.symm.nodup (by decide)
  have hfstne : List.Pairwise (fun x y : Camel × Nat × Nat => x.1 ≠ y.1) es := by
    rw [List.Nodup, List.pairwise_map] at hnd
    exact hnd
  have hstrict : List.Pairwise (fun x y : Camel × Nat × Nat =>
      entry_ge x y ∧ x.1 ≠ y.1) es := hsorted.and hfstne
  have hpw : List.Pairwise (fun x y => ∃ kx ky, keyOf b winners x = some kx ∧
      keyOf b winners y = some ky ∧
      (ky.1 < kx.1 ∨ (ky.1 = kx.1 ∧ ky.2 < kx.2))) (es.map Prod.fst) := by
    rw [List.pairwise_map]
    refine List.Pairwise.imp_of_mem ?_ hstrict
    intro x y hx hy hr
    obtain ⟨hge, hne⟩ := hr
    refine ⟨x.2, y.2, hkeyOf x hx, hkeyOf y hy, ?_⟩
    rcases hge with hlt | ⟨heq, hle⟩
    · exact Or.inl hlt
    · refine Or.inr ⟨heq, ?_⟩
      rcases Nat.lt_or_ge y.2.2 x.2.2 with h | h
      · exact h
      · exfalso
        have hyx : y.2.2 = x.2.2 := by omega
        have hkeq : x.2 = y.2 := Prod.ext heq.symm hyx.symm
        exact hne (hinj x.1 y.1 x.2 (hkeyOf x hx) (by rw [hkeyOf y hy, hkeq]))
  refine ⟨es.map Prod.fst, hok, hperm, hpw, ?_, hinj⟩
  intro cf co pf po hcf hpf hco hpo
  have hmf : cf ∈ es.map Prod.fst := hperm.mem_iff.mpr (Camel.mem_all cf)
  have hmo : co ∈ es.map Prod.fst := hperm.mem_iff.mpr (Camel.mem_all co)
  have hneq : cf ≠ co := by
    intro h
    rw [h, hco] at hcf
    have := Option.some.inj hcf
    omega
  have hilt := List.indexOf_lt_length.mpr hmf
  have hjlt := List.indexOf_lt_length.mpr hmo
  by_contra hcon
  push_neg at hcon
  have hij : (es.map Prod.fst).indexOf co ≠ (es.map Prod.fst).indexOf cf := by
    intro h
    exact hneq ((List.indexOf_inj hmf hmo).mp h.symm)
  have hlt2 : (es.map Prod.fst).indexOf co < (es.map Prod.fst).indexOf cf := by
    omega
  have hpg := List.pairwise_iff_getElem.mp hpw
  have hR := hpg ((es.map Prod.fst).indexOf co) ((es.map Prod.fst).indexOf cf)
    hjlt hilt hlt2
  rw [List.getElem_indexOf hjlt, List.getElem_indexOf hilt] at hR
  obtain ⟨kco, kcf, hkco, hkcf, hstrict2⟩ := hR
  obtain ⟨io, hko⟩ := camel_key_ok_of hwf hco (fun hge => absurd hpo (by omega))
  obtain ⟨ifn, hkf⟩ := camel_key_ok_of hwf hcf (hfin cf pf hcf)
  have hkco2 : keyOf b winners co = some (po, io) := by
    unfold keyOf
    rw [hco]
    dsimp only
    rw [hko]
    rfl
  have hkcf2 : keyOf b winners cf = some (pf, ifn) := by
    unfold keyOf
    rw [hcf]
    dsimp only
    rw [hkf]
    rfl
  have e1 : kco = (po, io) := Option.some.inj (hkco.symm.trans hkco2)
  have e2 : kcf = (pf, ifn) := Option.some.inj (hkcf.symm.trans hkcf2)
  subst e1
  subst e2
  rcases hstrict2 with h | ⟨h, _⟩
  · have hlt3 : pf < po := h
    omega
  · have heq3 : pf = po := h
    omega

/-- Claim C5 amended witness: the amended theorem applied to the concrete
board with all five camels stacked on field 0. -/
theorem claim_C5_amended_witness :
    WellFormedIdx settle_board ∧
    ∃ l, get_rankings settle_board none = .ok l ∧ l.Perm Camel.all := by
  refine ⟨by decide, ?_⟩
  obtain ⟨l, hok, hperm, _⟩ :=
    claim_C5_amended settle_board none (by decide)
      (fun c => ⟨0, by cases c <;> rfl⟩)
      (fun c p hc hge => absurd hge (by
        have h0 : (0 : Nat) = p := by cases c <;> exact Option.some.inj hc
        have hB : BOARD_SIZE = 16 := rfl
        omega))
  exact ⟨l, hok, hperm⟩

/-! ## Claim C6 -/

/-- `total_paths n` (the Python loop `total_paths *= 3 * i`) equals
`3 ^ n * n!`. -/
theorem total_paths_eq : ∀ n, total_paths n = 3 ^ n * Nat.factorial n := by
  intro n
  induction n with
  | zero => rfl
  | succ n ih =>
    unfold total_paths
    rw [ih, pow_succ, Nat.factorial_succ]
    ring

theorem total_paths_pos (n : Nat) : 0 < total_paths n := by
  rw [total_paths_eq]
  exact Nat.mul_pos (Nat.pos_pow_of_pos n (by omega)) (Nat.factorial_pos n)

/-- The step-assignment enumeration has exactly `3 ^ n` elements. -/
theorem stepChoices_length : ∀ n, (stepChoices n).length = 3 ^ n := by
  intro n
  induction n with
  | zero => rfl
  | succ n ih =>
    unfold stepChoices
    simp only [List.flatMap_cons, List.flatMap_nil, List.length_append,
      List.length_map, List.length_nil, ih]
    rw [pow_succ]
    ring

/-- Every enumerated step assignment has one step in {1, 2, 3} per slot. -/
theorem stepChoices_mem : ∀ (n : Nat), ∀ ss ∈ stepChoices n,
    ss.length = n ∧ ∀ s ∈ ss, 1 ≤ s ∧ s ≤ 3 := by
  intro n
  induction n with
  | zero =>
    intro ss hss
    have hs0 : ss = [] := List.mem_singleton.mp hss
    subst hs0
    exact ⟨rfl, fun s hs => absurd hs (List.not_mem_nil s)⟩
  | succ n ih =>
    intro ss hss
    unfold stepChoices at hss
    obtain ⟨s, hs, hmap⟩ := List.mem_flatMap.mp hss
    obtain ⟨ss0, hss0, rfl⟩ := List.mem_map.mp hmap
    obtain ⟨hlen, hmem⟩ := ih ss0 hss0
    refine ⟨by rw [List.length_cons, hlen], ?_⟩
    intro t ht
    rcases List.mem_cons.mp ht with rfl | ht2
    · have h13 : t = 1 ∨ t = 2 ∨ t = 3 := by simpa using hs
      omega
    · exact hmem t ht2

/-- Every move built by `zip(camel_order, move_steps)` has positive steps. -/
theorem zipWith_move_steps :
    ∀ (ord : List Camel) (ss : List Nat), (∀ s ∈ ss, 1 ≤ s) →
      ∀ m ∈ List.zipWith Move.mk ord ss, 1 ≤ m.steps := by
  intro ord
  induction ord with
  | nil => intro ss _ m hm; exact absurd hm (by simp)
  | cons a as ih =>
    intro ss hss m hm
    cases ss with
    | nil => exact absurd hm (by simp)
    | cons s ss2 =>
      rw [List.zipWith_cons_cons] at hm
      rcases List.mem_cons.mp hm with rfl | hm2
      · exact hss s (List.mem_cons_self s ss2)
      · exact ih ss2 (fun t ht => hss t (List.mem_cons_of_mem s ht)) m hm2

/-- Setting one field to a non-tile value never creates a tile. -/
theorem is_jump_at_mk_set {fs : List BoardField} {i1 i2 : Camel → Option Nat}
    {q : Nat} {v : BoardField} (hv : ∀ j o, v ≠ BoardField.jump j o) (p : Nat)
    (h : is_jump_at ⟨fs.set q v, i1⟩ p = true) :
    is_jump_at ⟨fs, i2⟩ p = true := by
  unfold is_jump_at at h ⊢
  by_cases hpq : p = q
  · subst hpq
    by_cases hlt : p < fs.length
    · cases v with
      | empty => rw [get?_set_self _ _ _ hlt] at h; exact nomatch h
      | stack cs => rw [get?_set_self _ _ _ hlt] at h; exact nomatch h
      | jump j o => exact absurd rfl (hv j o)
    · rw [List.get?_eq_none.mpr (by rw [List.length_set]; omega)] at h
      exact nomatch h
  · rw [get?_set_other fs v (fun hq => hpq hq.symm)] at h
    exact h

/-- A subsequent move never creates a tile, so the no-adjacent-tiles
invariant survives it. -/
theorem naj_preserved_move {b rb : Board} {start : Nat} {S M : List Camel}
    {cm : Camel} {FL : Nat}
    (hnaj : NoAdjacentJumps b)
    (hf : rb.fields = (origin_updated b start S cm).set FL (.stack M) ∨
      rb.fields = origin_updated b start S cm) :
    NoAdjacentJumps rb := by
  have hv0 : ∀ j o, (if (split_sl S cm).isEmpty then BoardField.empty
      else BoardField.stack (split_sl S cm)) ≠ BoardField.jump j o := by
    intro j o
    by_cases hE : (split_sl S cm).isEmpty
    · rw [if_pos hE]; intro hc; cases hc
    · rw [if_neg hE]; intro hc; cases hc
  have hjump : ∀ p, is_jump_at rb p = true → is_jump_at b p = true := by
    intro p hp
    rcases hf with hf | hf
    · have hp2 : is_jump_at (⟨(origin_updated b start S cm).set FL
          (.stack M), rb.index⟩ : Board) p = true := by
        rw [← hf]
        exact hp
      have hp3 : is_jump_at (⟨origin_updated b start S cm, rb.index⟩ : Board)
          p = true :=
        is_jump_at_mk_set (fun j o hc => by cases hc) p hp2
      exact is_jump_at_mk_set hv0 p hp3
    · have hp2 : is_jump_at (⟨origin_updated b start S cm, rb.index⟩ : Board)
          p = true := by
        rw [← hf]
        exact hp
      exact is_jump_at_mk_set hv0 p hp2
  intro p hplt hpj
  have hbp1 := hnaj p hplt (hjump p hpj)
  cases h2 : is_jump_at rb (p + 1) with
  | false => rfl
  | true =>
    have h3 := hjump (p + 1) h2
    rw [hbp1] at h3
    exact nomatch h3

/-- The inner replay loop of one combination always succeeds starting from
a well-formed all-on-track board, and its outcome feeds `get_rankings` with
exactly the data the latter needs: a well-formed total index in which every
finished camel belongs to the returned finish group. -/
theorem runMoves_spec (w : ℚ) :
    ∀ (ms : List Move) (b : Board) (sh : String → ℚ),
      WellFormed b → AllOnTrack b →
      (∀ m ∈ ms, 1 ≤ m.steps) →
      ∃ bf wn shf, runMoves w b ms sh = .ok (bf, wn, shf) ∧
        WellFormedIdx bf ∧
        (∀ c : Camel, ∃ p, bf.index c = some p) ∧
        (∀ c p, bf.index c = some p → BOARD_SIZE ≤ p →
          ∃ ws, wn = some ws ∧ c ∈ ws) := by
  intro ms
  induction ms with
  | nil =>
    intro b sh hwf hot _
    refine ⟨b, none, sh, rfl, hwf.1, ?_, ?_⟩
    · intro c
      obtain ⟨p, hp, _⟩ := hot c
      exact ⟨p, hp⟩
    · intro c p hp hge
      obtain ⟨q, hq, hqlt⟩ := hot c
      rw [hp] at hq
      have hqp := Option.some.inj hq
      exfalso
      omega
  | cons m rest ih =>
    intro b sh hwf hot hsteps
    have hst1 : 1 ≤ m.steps := hsteps m (List.mem_cons_self m rest)
    have hrest : ∀ x ∈ rest, 1 ≤ x.steps :=
      fun x hx => hsteps x (List.mem_cons_of_mem m hx)
    obtain ⟨cm, steps⟩ := m
    obtain ⟨start, hidx, hstart⟩ := hot cm
    obtain ⟨S, hS⟩ := wf_stack_exists hwf.1 hidx hstart
    obtain ⟨r, hok, h1, h2, h3, h4, h5, h6, hwfr⟩ :=
      apply_move_ok_spec b cm steps start S hwf hidx hstart hst1 hS
    by_cases hFL : BOARD_SIZE ≤ final_landing b start steps
    · rw [if_pos hFL] at h3
      refine ⟨r.board, some (split_ms S cm),
        (match r.owner with | some o => addS sh o w | none => sh),
        ?_, hwfr, ?_, ?_⟩
      · unfold runMoves
        rw [hok]
        dsimp only
        rw [h3]
      · intro c
        by_cases hc : c ∈ split_ms S cm
        · exact ⟨final_landing b start steps, h1 c hc⟩
        · obtain ⟨p, hp, _⟩ := hot c
          exact ⟨p, by rw [h2 c hc]; exact hp⟩
      · intro c p hp hge
        by_cases hc : c ∈ split_ms S cm
        · exact ⟨split_ms S cm, rfl, hc⟩
        · obtain ⟨q, hq, hqlt⟩ := hot c
          rw [h2 c hc, hq] at hp
          have hqp := Option.some.inj hp
          exfalso
          omega
    · push_neg at hFL
      rw [if_neg (by omega)] at h3
      have hnaj2 : NoAdjacentJumps r.board :=
        naj_preserved_move hwf.2 (Or.inl (h6 hFL))
      have hot2 : AllOnTrack r.board := by
        intro c
        by_cases hc : c ∈ split_ms S cm
        · exact ⟨final_landing b start steps, h1 c hc, hFL⟩
        · obtain ⟨p, hp, hplt⟩ := hot c
          exact ⟨p, by rw [h2 c hc]; exact hp, hplt⟩
      obtain ⟨bf, wn, shf, hrun, hwfi2, hall2, hfin2⟩ :=
        ih r.board (match r.owner with | some o => addS sh o w | none => sh)
          ⟨hwfr, hnaj2⟩ hot2 hrest
      refine ⟨bf, wn, shf, ?_, hwfi2, hall2, hfin2⟩
      unfold runMoves
      rw [hok]
      dsimp only
      rw [h3]
      exact hrun

/-- A list of length five is a literal five-element list. -/
theorem list_eq_five {α : Type} (l : List α) (h : l.length = 5) :
    ∃ a b c d e, l = [a, b, c, d, e] := by
  obtain ⟨a, l1, rfl⟩ := List.exists_of_length_succ l
    (show l.length = 4 + 1 by omega)
  have h1 : l1.length = 3 + 1 := by rw [List.length_cons] at h; omega
  obtain ⟨b, l2, rfl⟩ := List.exists_of_length_succ l1 h1
  have h2 : l2.length = 2 + 1 := by rw [List.length_cons] at h1; omega
  obtain ⟨c, l3, rfl⟩ := List.exists_of_length_succ l2 h2
  have h3 : l3.length = 1 + 1 := by rw [List.length_cons] at h2; omega
  obtain ⟨d, l4, rfl⟩ := List.exists_of_length_succ l3 h3
  have h4 : l4.length = 0 + 1 := by rw [List.length_cons] at h3; omega
  obtain ⟨e, l5, rfl⟩ := List.exists_of_length_succ l4 h4
  have h5 : l5.length = 0 := by rw [List.length_cons] at h4; omega
  rw [List.length_eq_zero] at h5
  subst h5
  exact ⟨a, b, c, d, e, rfl⟩

/-- Each simulated combination succeeds and adds its weight to exactly one
camel's first-place bucket and one camel's second-place bucket. -/
theorem process_combo_spec (b0 : Board) (w : ℚ) (acc : SimAcc)
    (ord : List Camel) (ss : List Nat)
    (hwf : WellFormed b0) (hot : AllOnTrack b0)
    (hss : ∀ s ∈ ss, 1 ≤ s) :
    ∃ acc2 cf cs, process_combo b0 w acc ord ss = .ok acc2 ∧
      acc2.fstP = addP acc.fstP cf w ∧
      acc2.sndP = addP acc.sndP cs w := by
  obtain ⟨bf, wn, shf, hrun, hwfi, hall, hfin⟩ :=
    runMoves_spec w (List.zipWith Move.mk ord ss) b0 acc.shifts hwf hot
      (zipWith_move_steps ord ss hss)
  obtain ⟨es, hok, hperm, _, _⟩ := get_rankings_spec hwfi hall hfin
  have hlen5 : (es.map Prod.fst).length = 5 := by
    rw [hperm.length_eq]
    rfl
  obtain ⟨c1, c2, c3, c4, c5, hl⟩ := list_eq_five (es.map Prod.fst) hlen5
  have hok2 : get_rankings bf wn = .ok [c1, c2, c3, c4, c5] := by
    rw [hok, hl]
  cases hwn : wn with
  | some ws =>
    refine ⟨⟨addP acc.fstP c1 w, addP acc.sndP c2 w, addP acc.winP c1 w,
      addP acc.loseP c5 w, shf⟩, c1, c2, ?_, rfl, rfl⟩
    unfold process_combo
    rw [hrun]
    dsimp only
    rw [hok2]
    dsimp only
    rw [hwn]
  | none =>
    refine ⟨⟨addP acc.fstP c1 w, addP acc.sndP c2 w, acc.winP,
      acc.loseP, shf⟩, c1, c2, ?_, rfl, rfl⟩
    unfold process_combo
    rw [hrun]
    dsimp only
    rw [hok2]
    dsimp only
    rw [hwn]

/-- Adding a weight to one camel's bucket raises the five-camel sum by
exactly that weight. -/
theorem sumC_addP (f : Camel → ℚ) (c : Camel) (w : ℚ) :
    sumC (addP f c w) = sumC f + w := by
  cases c <;> simp [sumC, addP, Camel.all] <;> ring

theorem addP_self (f : Camel → ℚ) (c : Camel) (w : ℚ) : addP f c w c = f c + w := by
  simp [addP]

theorem addP_other (f : Camel → ℚ) {c x : Camel} (w : ℚ) (h : x ≠ c) :
    addP f c w x = f x := by
  simp [addP, h]

/-- Folding a step that always succeeds and adds `w` to both probability
sums yields `length * w` in total. -/
theorem foldE_ok_sum {α : Type} (f : SimAcc → α → Except SimError SimAcc) (w : ℚ) :
    ∀ (l : List α) (a : SimAcc),
      (∀ x ∈ l, ∀ s : SimAcc, ∃ s2, f s x = .ok s2 ∧
        sumC s2.fstP = sumC s.fstP + w ∧ sumC s2.sndP = sumC s.sndP + w) →
      ∃ a2, foldE f a l = .ok a2 ∧
        sumC a2.fstP = sumC a.fstP + l.length * w ∧
        sumC a2.sndP = sumC a.sndP + l.length * w := by
  intro l
  induction l with
  | nil =>
    intro a _
    exact ⟨a, rfl, by simp, by simp⟩
  | cons x xs ih =>
    intro a hall
    obtain ⟨s2, hs2, hf1, hf2⟩ := hall x (List.mem_cons_self x xs) a
    obtain ⟨a2, ha2, hg1, hg2⟩ :=
      ih s2 (fun y hy s => hall y (List.mem_cons_of_mem x hy) s)
    refine ⟨a2, ?_, ?_, ?_⟩
    · unfold foldE
      rw [hs2]
      dsimp only
      exact ha2
    · rw [hg1, hf1, List.length_cons]
      push_cast
      ring
    · rw [hg2, hf2, List.length_cons]
      push_cast
      ring

/-- Claim C6: with all five camels on track and a non-empty remaining set
of n camels, the simulator enumerates exactly n! permutations crossed with
3 ^ n step assignments (n! * 3 ^ n combinations, the computed path total),
each combination succeeds and contributes its weight 1 / (n! * 3 ^ n) to
exactly one camel's first-place total and one camel's second-place total,
and the first-place probabilities sum to exactly 1, as do the second-place
probabilities. -/
theorem claim_C6 (g : Game)
    (hwf : WellFormed g.board) (hot : AllOnTrack g.board)
    (hne : g.camels_left ≠ []) :
    g.camels_left.permutations.length = Nat.factorial g.camels_left.length ∧
    (stepChoices g.camels_left.length).length = 3 ^ g.camels_left.length ∧
    total_paths g.camels_left.length =
      3 ^ g.camels_left.length * Nat.factorial g.camels_left.length ∧
    (∀ (acc : SimAcc) (ord : List Camel) (ss : List Nat),
      ss ∈ stepChoices g.camels_left.length →
      ∃ acc2 cf cs,
        process_combo g.board (1 / (total_paths g.camels_left.length : ℚ))
          acc ord ss = .ok acc2 ∧
        acc2.fstP cf = acc.fstP cf + 1 / (total_paths g.camels_left.length : ℚ) ∧
        (∀ c, c ≠ cf → acc2.fstP c = acc.fstP c) ∧
        acc2.sndP cs = acc.sndP cs + 1 / (total_paths g.camels_left.length : ℚ) ∧
        (∀ c, c ≠ cs → acc2.sndP c = acc.sndP c)) ∧
    ∃ acc, simulate_probs g = .ok acc ∧
      sumC acc.fstP = 1 ∧ sumC acc.sndP = 1 := by
  refine ⟨List.length_permutations g.camels_left, stepChoices_length _,
    total_paths_eq _, ?_, ?_⟩
  · intro acc ord ss hss
    obtain ⟨hlen, hmem⟩ := stepChoices_mem _ ss hss
    obtain ⟨acc2, cf, cs, hpc, hf, hs⟩ :=
      process_combo_spec g.board _ acc ord ss hwf hot
        (fun s hsm => (hmem s hsm).1)
    refine ⟨acc2, cf, cs, hpc, ?_, ?_, ?_, ?_⟩
    · rw [hf]; exact addP_self _ _ _
    · intro c hc; rw [hf]; exact addP_other _ _ hc
    · rw [hs]; exact addP_self _ _ _
    · intro c hc; rw [hs]; exact addP_other _ _ hc
  · have hie : g.camels_left.isEmpty = false := by
      cases hcl : g.camels_left with
      | nil => exact absurd hcl hne
      | cons a l => rfl
    have houter : ∀ ord ∈ g.camels_left.permutations, ∀ acc : SimAcc,
        ∃ acc2,
          foldE (fun a ss => process_combo g.board
              (1 / (total_paths g.camels_left.length : ℚ)) a ord ss) acc
            (stepChoices g.camels_left.length) = .ok acc2 ∧
          sumC acc2.fstP = sumC acc.fstP +
            ((3 ^ g.camels_left.length : ℕ) : ℚ) *
              (1 / (total_paths g.camels_left.length : ℚ)) ∧
          sumC acc2.sndP = sumC acc.sndP +
            ((3 ^ g.camels_left.length : ℕ) : ℚ) *
              (1 / (total_paths g.camels_left.length : ℚ)) := by
      intro ord _ acc
      obtain ⟨a2, ha2, hg1, hg2⟩ :=
        foldE_ok_sum
          (fun a ss => process_combo g.board
            (1 / (total_paths g.camels_left.length : ℚ)) a ord ss)
          (1 / (total_paths g.camels_left.length : ℚ))
          (stepChoices g.camels_left.length) acc
          (by
            intro ss hss s
            obtain ⟨hlen, hmem⟩ := stepChoices_mem _ ss hss
            obtain ⟨acc2, cf, cs, hpc, hf, hs2⟩ :=
              process_combo_spec g.board
                (1 / (total_paths g.camels_left.length : ℚ)) s ord ss hwf hot
                (fun t ht => (hmem t ht).1)
            exact ⟨acc2, hpc, by rw [hf, sumC_addP], by rw [hs2, sumC_addP]⟩)
      rw [stepChoices_length] at hg1 hg2
      exact ⟨a2, ha2, hg1, hg2⟩
    obtain ⟨accF, hfold, hs1, hs2⟩ :=
      foldE_ok_sum
        (fun acc ord => foldE (fun a ss => process_combo g.board
            (1 / (total_paths g.camels_left.length : ℚ)) a ord ss) acc
          (stepChoices g.camels_left.length))
        (((3 ^ g.camels_left.length : ℕ) : ℚ) *
          (1 / (total_paths g.camels_left.length : ℚ)))
        g.camels_left.permutations
        (⟨fun _ => 0, fun _ => 0, fun _ => 0, fun _ => 0, fun _ => 0⟩ : SimAcc)
        (fun ord hord s => houter ord hord s)
    rw [List.length_permutations] at hs1 hs2
    have h0 : sumC (fun _ : Camel => (0 : ℚ)) = 0 := by
      simp [sumC, Camel.all]
    have hfact : ((Nat.factorial g.camels_left.length : ℕ) : ℚ) ≠ 0 := by
      exact_mod_cast Nat.pos_iff_ne_zero.mp (Nat.factorial_pos _)
    have hpow : ((3 ^ g.camels_left.length : ℕ) : ℚ) ≠ 0 := by
      exact_mod_cast Nat.pos_iff_ne_zero.mp
        (Nat.pos_pow_of_pos g.camels_left.length (by omega))
    have hval : ((Nat.factorial g.camels_left.length : ℕ) : ℚ) *
        (((3 ^ g.camels_left.length : ℕ) : ℚ) *
          (1 / (total_paths g.camels_left.length : ℚ))) = 1 := by
      rw [total_paths_eq]
      push_cast
      push_cast at hfact hpow
      field_simp
      ring
    refine ⟨accF, ?_, ?_, ?_⟩
    · unfold simulate_probs
      rw [if_neg (by rw [hie]; exact Bool.false_ne_true)]
      exact hfold
    · rw [hs1]
      dsimp only at h0 ⊢
      rw [h0]
      rw [zero_add]
      exact hval
    · rw [hs2]
      dsimp only at h0 ⊢
      rw [h0]
      rw [zero_add]
      exact hval

/-- Claim C6 witness: the simulator run on the fully stacked board with one
camel remaining, with both probability totals summing to one. -/
theorem claim_C6_witness :
    WellFormed c6w_game.board ∧ AllOnTrack c6w_game.board ∧
    c6w_game.camels_left ≠ [] ∧
    ∃ acc, simulate_probs c6w_game = .ok acc ∧
      sumC acc.fstP = 1 ∧ sumC acc.sndP = 1 := by
  refine ⟨by decide, by decide, by decide, ?_⟩
  obtain ⟨_, _, _, _, hsim⟩ :=
    claim_C6 c6w_game (by decide) (by decide) (by decide)
  exact hsim

/-! ## Claim C10 -/

theorem rankings_error_of_finished_missing {b : Board} {c : Camel} {p : Nat}
    {winners : Option (List Camel)} (hc : b.index c = some p)
    (hp : BOARD_SIZE ≤ p)
    (hw : winners = none ∨ ∃ ws, winners = some ws ∧ c ∉ ws) :
    ∃ e, get_rankings b winners = .error e := by
  have hkey : camel_key b winners c p = .error .lookupFailed := by
    unfold camel_key
    rw [if_neg (by omega)]
    cases hw with
    | inl h => rw [h]
    | inr h =>
      obtain ⟨ws, hws, hnotin⟩ := h
      rw [hws]
      simp [hnotin]
  cases hke : keyed_entries b winners with
  | error e => exact ⟨e, by unfold get_rankings; rw [hke]⟩
  | ok es =>
    exfalso
    have := mapExcept_ok_forall hke (c, p) (index_entries_mem hc)
    obtain ⟨y, hy⟩ := this
    rw [hkey] at hy
    cases hy

/-- Claim C10: on any board holding a camel whose recorded position is at
least 16, `get_rankings` fails whenever the finish-order argument is `None`
or omits that camel (the secondary key looks the camel up in that list);
consequently `evaluate_bets`, which always passes `None`, fails on every
such board, as does the shell's current-ranking query (the `winners = none`
case). -/
theorem claim_C10 (b : Board) (c : Camel) (p : Nat)
    (winners : Option (List Camel)) (hc : b.index c = some p)
    (hp : BOARD_SIZE ≤ p)
    (hw : winners = none ∨ ∃ ws, winners = some ws ∧ c ∉ ws) :
    (∃ e, get_rankings b winners = .error e) ∧
    (∀ g : Game, ∃ e2, evaluate_bets g b = .error e2) := by
  refine ⟨rankings_error_of_finished_missing hc hp hw, ?_⟩
  intro g
  obtain ⟨e, he⟩ := rankings_error_of_finished_missing hc hp (Or.inl rfl)
  exact ⟨.rankFailed e, by unfold evaluate_bets; rw [he]⟩


theorem claim_C10_witness :
    (finished_board.index .Yellow = some 16 ∧ BOARD_SIZE ≤ 16 ∧
      ((none : Option (List Camel)) = none ∨
        ∃ ws, (none : Option (List Camel)) = some ws ∧ Camel.Yellow ∉ ws)) ∧
    (∃ e, get_rankings finished_board none = .error e) ∧
    (∀ g : Game, ∃ e2, evaluate_bets g finished_board = .error e2) :=
  ⟨⟨rfl, by decide, Or.inl rfl⟩,
    claim_C10 finished_board .Yellow 16 none rfl (by decide) (Or.inl rfl)⟩

/-! ## Claim C7 -/

/-- Claim C7: when round settlement runs and a ranking is defined, every
player's balance moves by the sum over their owned wagers of
(+denomination when the wager's camel came first, +1 when second, -1
otherwise), clamped at a floor of 0; afterwards every tile is cleared from
the board, the wager pools are reset to full, every player's owned wagers
are emptied and the not-yet-moved camel set is reset to all five camels. -/
theorem claim_C7 (g : Game) (b : Board) (c1 c2 : Camel) (rest : List Camel)
    (hr : get_rankings b none = .ok (c1 :: c2 :: rest)) :
    ∃ g2, evaluate_bets g b = .ok g2 ∧
      g2.players = g.players.map (fun np =>
        (np.1, Player.mk
          (max (np.2.balance +
            (np.2.owned_bets.map fun bc =>
              if bc.2 = c1 then bc.1.val else if bc.2 = c2 then 1 else -1).sum) 0)
          [])) ∧
      (∀ np ∈ g2.players, 0 ≤ np.2.balance ∧ np.2.owned_bets = []) ∧
      (∀ q, is_jump_at g2.board q = false) ∧
      g2.bets = reset_bets ∧
      g2.camels_left = Camel.all := by
  refine ⟨_, by unfold evaluate_bets; rw [hr], ?_, ?_, ?_, rfl, rfl⟩
  · rw [List.map_map]
    apply List.map_congr_left
    intro np _
    simp [Function.comp, net_win_eq_sum]
  · intro np hnp
    rw [List.map_map] at hnp
    obtain ⟨np0, _, hmap⟩ := List.mem_map.mp hnp
    refine ⟨?_, ?_⟩
    · rw [← hmap]; exact le_max_right _ _
    · rw [← hmap]; rfl
  · intro q
    unfold is_jump_at
    show (match ((b.fields.map fun f =>
      match f with
      | .jump _ _ => BoardField.empty
      | f => f).get? q) with
      | some (.jump _ _) => true
      | _ => false) = false
    rw [List.get?_map]
    cases hq : b.fields.get? q with
    | none => rfl
    | some f => cases f <;> rfl


theorem claim_C7_witness :
    get_rankings settle_board none =
      .ok [Camel.Green, .Orange, .Blue, .White, .Yellow] ∧
    (∃ g2, evaluate_bets settle_game settle_board = .ok g2 ∧
      g2.players = settle_game.players.map (fun np =>
        (np.1, Player.mk
          (max (np.2.balance +
            (np.2.owned_bets.map fun bc =>
              if bc.2 = Camel.Green then bc.1.val
              else if bc.2 = Camel.Orange then 1 else -1).sum) 0)
          [])) ∧
      (∀ np ∈ g2.players, 0 ≤ np.2.balance ∧ np.2.owned_bets = []) ∧
      (∀ q, is_jump_at g2.board q = false) ∧
      g2.bets = reset_bets ∧
      g2.camels_left = Camel.all) :=
  ⟨rfl, claim_C7 settle_game settle_board .Green .Orange [.Blue, .White, .Yellow] rfl⟩

/-! ## Claim C8 -/

/-- Claim C8 fails on the code: `apply_action` performs no placement
validation at all.  Placing a tile on board position 0 of a fresh game is
accepted and stores the tile, although the specification demands that the
core reject it. -/

theorem claim_C8_counterexample :
    ∃ g2, apply_action c8_game ⟨some "a", .place ⟨0, .Forward⟩⟩ = .ok (g2, none) ∧
      g2.board.fields.get? 0 = some (.jump .Forward (some "a")) :=
  ⟨_, rfl, rfl⟩

/-- Claim C8 amended: the core `apply_action` applies any `Place` action
with an in-track position unconditionally, overwriting the target field
and touching nothing else; the occupancy, tile-adjacency and position-0
rules are enforced only by the shell parser `parse_place` before the
action reaches the core. -/
theorem claim_C8_amended (g : Game) (j : Jump) :
    (∀ (pos : Nat) (ow : Option String), pos < g.board.fields.length →
      ∃ g2, apply_action g ⟨ow, .place ⟨pos, j⟩⟩ = .ok (g2, none) ∧
        g2.board.fields = g.board.fields.set pos (.jump j ow) ∧
        g2.board.index = g.board.index ∧
        g2.players = g.players ∧ g2.bets = g.bets ∧
        g2.camels_left = g.camels_left) ∧
    (∀ pos : Nat, ¬ g.board.fields.get? pos = some .empty →
      parse_place g (pos + 1) j = .error .invalid) ∧
    (∀ pos : Nat, 1 ≤ pos →
      (is_jump_at g.board (pos - 1) = true ∨
        (pos ≠ 15 ∧ is_jump_at g.board (pos + 1) = true)) →
      parse_place g (pos + 1) j = .error .invalid) ∧
    parse_place g 1 j = .error .invalid := by
  refine ⟨?_, ?_, ?_, ?_⟩
  · intro pos ow hlt
    refine ⟨⟨⟨g.board.fields.set pos (.jump j ow), g.board.index⟩,
      g.players, g.bets, g.camels_left⟩, ?_, rfl, rfl, rfl, rfl, rfl⟩
    unfold apply_action
    simp [hlt]
  · intro pos hne
    unfold parse_place
    have he : ((pos + 1 : Nat) : Int) - 1 = (pos : Int) := by push_cast; ring
    rw [he, show ((pos : Int)).toNat = pos from rfl]
    by_cases h0 : pos = 0
    · rw [if_pos (by exact_mod_cast h0)]
    · rw [if_neg (by exact_mod_cast h0)]
      by_cases hbig : 16 ≤ pos
      · rw [if_pos (Or.inr (by exact_mod_cast hbig))]
      · rw [if_neg (by omega)]
        cases hf : g.board.fields.get? pos with
        | none => rfl
        | some f =>
          cases f with
          | empty => exact absurd hf hne
          | stack cs => rfl
          | jump j2 o => rfl
  · intro pos hpos hadj
    unfold parse_place
    have he : ((pos + 1 : Nat) : Int) - 1 = (pos : Int) := by push_cast; ring
    rw [he, show ((pos : Int)).toNat = pos from rfl]
    by_cases h0 : pos = 0
    · rw [if_pos (by exact_mod_cast h0)]
    · rw [if_neg (by exact_mod_cast h0)]
      by_cases hbig : 16 ≤ pos
      · rw [if_pos (Or.inr (by exact_mod_cast hbig))]
      · rw [if_neg (by omega)]
        cases hf : g.board.fields.get? pos with
        | none => rfl
        | some f =>
          cases f with
          | empty =>
            cases hadj with
            | inl h => simp [h]
            | inr h =>
              rcases h with ⟨h15, hj⟩
              by_cases hleft : is_jump_at g.board (pos - 1) = true
              · simp [hleft]
              · simp only [Bool.not_eq_true] at hleft
                simp [hleft, h15, hj]
          | stack cs => rfl
          | jump j2 o => rfl
  · rfl


theorem claim_C8_amended_witness :
    (∃ g2, apply_action c8w_game ⟨some "a", .place ⟨0, .Forward⟩⟩ = .ok (g2, none) ∧
      g2.board.fields = c8w_game.board.fields.set 0 (.jump .Forward (some "a")) ∧
      g2.board.index = c8w_game.board.index ∧
      g2.players = c8w_game.players ∧ g2.bets = c8w_game.bets ∧
      g2.camels_left = c8w_game.camels_left) ∧
    parse_place c8w_game 4 .Forward = .error .invalid ∧
    parse_place c8w_game 3 .Forward = .error .invalid ∧
    parse_place c8w_game 1 .Forward = .error .invalid :=
  ⟨(claim_C8_amended c8w_game .Forward).1 0 (some "a") (by decide),
    (claim_C8_amended c8w_game .Forward).2.1 3 (by decide),
    (claim_C8_amended c8w_game .Forward).2.2.1 2 (by decide) (Or.inr ⟨by decide, by decide⟩),
    (claim_C8_amended c8w_game .Forward).2.2.2⟩

end CamelUp
